import Mathlib

/-!
Shallow embedding of the vrtl_trader core pipeline (market normalizer, free-text
range parser, family builder, anomaly scorer, ranker) translated from the
TypeScript sources in src/normalize/normalizeMarkets.ts, src/normalize/parseRanges.ts,
src/normalize/buildFamilies.ts, src/detect/basicAnomalies.ts and src/score/rank.ts.

Modelling conventions:
- JavaScript numbers are modelled by exact rationals (ℚ); `null`/`undefined` by `Option`.
- The host primitives Math.sqrt, Math.log10 and JSON.parse are transcendental or
  external to the core, so they are passed in as explicit function parameters
  (`sq`, `lg`, `jp`); every theorem quantifies over them.
- JavaScript regular expressions are replaced by hand-written matchers over
  `List Char` implementing the exact leftmost-match semantics of the concrete
  patterns used in the source.
- All recursion is structural (or fuelled) so that every definition evaluates
  inside `decide`.
-/

set_option maxRecDepth 10000

attribute [local semireducible] Rat.add Rat.mul Rat.inv Rat.sub Rat.ofScientific

namespace VT

/-! ## Character classes (JS `\d`, `\s`, `\w`, dash variants, case folding) -/

/-- ASCII digit test, JS `\d`. -/
def isDigitC (c : Char) : Bool := '0' ≤ c && c ≤ '9'

/-- Whitespace test modelling JS `\s` (the code points that actually occur here). -/
def isWSC (c : Char) : Bool :=
  c = ' ' || c = '\t' || c = '\n' || c = '\r' || c = '\u000B' || c = '\u000C' ||
  c = '\u00A0' || c = '\u2028' || c = '\u2029' || c = '\uFEFF'

/-- Dash variants normalized by the source regex (figure dash, en dash, em dash, minus sign). -/
def isDashVar (c : Char) : Bool :=
  c = '\u2012' || c = '\u2013' || c = '\u2014' || c = '\u2212'

/-- Replaces a dash variant by the ASCII hyphen, as in `normalize`. -/
def dashFix (c : Char) : Char := if isDashVar c then '-' else c

/-- ASCII lower-casing, sufficient for every character class used by the source. -/
def toLowerC (c : Char) : Char :=
  if 'A' ≤ c && c ≤ 'Z' then Char.ofNat (c.toNat + 32) else c

/-- Word character test, JS `\w` (used for `\b` boundaries). -/
def isWordC (c : Char) : Bool :=
  isDigitC c || ('a' ≤ c && c ≤ 'z') || ('A' ≤ c && c ≤ 'Z') || c = '_'

/-! ## String normalization helpers -/

/-- Collapses every whitespace run into a single space, as `replace(/\s+/g, " ")`.
The boolean argument remembers whether the previous character was whitespace. -/
def collapseGo (prevWS : Bool) : List Char → List Char
  | [] => []
  | c :: t =>
    if isWSC c then
      (if prevWS then collapseGo true t else ' ' :: collapseGo true t)
    else c :: collapseGo false t

/-- Collapses whitespace runs to single spaces. -/
def collapseWS (cs : List Char) : List Char := collapseGo false cs

/-- Drops leading and trailing whitespace, JS `String.prototype.trim`. -/
def trimWS (cs : List Char) : List Char :=
  ((cs.dropWhile isWSC).reverse.dropWhile isWSC).reverse

/-- Char-level body of the source function `normalize`: dash variants to `-`,
whitespace runs to a single space, then trim. -/
def normalizeChars (cs : List Char) : List Char :=
  trimWS (collapseWS (cs.map dashFix))

/-- Translation of `normalize` from parseRanges.ts. -/
def normalizeStr (s : String) : String := String.mk (normalizeChars s.data)

/-- JS `String.prototype.trim` on `String`. -/
def jsTrim (s : String) : String := String.mk (trimWS s.data)

/-! ## Decimal digits and exact number formatting (model of JS `Number.prototype.toString`) -/

/-- Numeric value of a digit character. -/
def digitVal (c : Char) : ℕ := c.toNat - '0'.toNat

/-- Natural number denoted by a list of digit characters (most significant first). -/
def natOfDigits (ds : List Char) : ℕ := ds.foldl (fun a c => a * 10 + digitVal c) 0

/-- Digit character for a value below 10. -/
def digitChar (n : ℕ) : Char := Char.ofNat (48 + n)

/-- Fuelled digit expansion of a natural number (most significant first). -/
def natDigsGo : ℕ → ℕ → List Char
  | 0, _ => []
  | f + 1, n =>
    if n < 10 then [digitChar n]
    else natDigsGo f (n / 10) ++ [digitChar (n % 10)]

/-- Decimal digit list of a natural number; always nonempty. -/
def natDigs (n : ℕ) : List Char := natDigsGo (n + 1) n

/-- Decimal string of a natural number. -/
def natRepr (n : ℕ) : String := String.mk (natDigs n)

/-- Smallest exponent `k ≤ 60` such that `q * 10^k` is an integer, when one exists. -/
def decExponent (q : ℚ) : Option ℕ :=
  (List.range 61).find? fun k => (q * (10 : ℚ) ^ k).den = 1

/-- Left-pads a digit list with zeros to the given length. -/
def padZeros (k : ℕ) (ds : List Char) : List Char :=
  List.replicate (k - ds.length) '0' ++ ds

/-- Digit string (with decimal point when needed) of a nonnegative rational whose
denominator divides a power of ten. Models JS number printing for the exact
decimal values produced by the range parser. -/
def qPosToString (q : ℚ) : String :=
  match decExponent q with
  | some 0 => natRepr q.num.toNat
  | some (k + 1) =>
    let scaled : ℕ := (q * (10 : ℚ) ^ (k + 1)).num.toNat
    let ipart : ℕ := scaled / 10 ^ (k + 1)
    let fpart : ℕ := scaled % 10 ^ (k + 1)
    natRepr ipart ++ "." ++ String.mk (padZeros (k + 1) (natDigs fpart))
  | none => natRepr q.num.toNat ++ "/" ++ natRepr q.den

/-- Model of JS `String(n)` for a (finite) number value `n`. -/
def qToString (q : ℚ) : String :=
  if q < 0 then "-" ++ qPosToString (-q) else qPosToString q

/-- Translation of `stripTrailingZeros` from parseRanges.ts: drop trailing zeros
after a decimal point (regex `\.?0+$`). -/
def stripTrailingZeros (q : ℚ) : String :=
  let s := qToString q
  if s.data.contains '.' then
    let r := s.data.reverse
    if r.takeWhile (· = '0') = [] then s
    else
      let r1 := r.dropWhile (· = '0')
      match r1 with
      | '.' :: r2 => String.mk r2.reverse
      | _ => String.mk r1.reverse
  else s

/-! ## Model of JS `Number(string)` -/

/-- Value of a hexadecimal digit character, if any. -/
def hexVal (c : Char) : Option ℕ :=
  if isDigitC c then some (digitVal c)
  else if 'a' ≤ c && c ≤ 'f' then some (10 + (c.toNat - 'a'.toNat))
  else if 'A' ≤ c && c ≤ 'F' then some (10 + (c.toNat - 'A'.toNat))
  else none

/-- Natural number from digits in a given base, failing on an invalid digit. -/
def radixDigits (base : ℕ) : List Char → Option ℕ → Option ℕ
  | [], acc => acc
  | c :: t, acc =>
    match hexVal c, acc with
    | some v, some a => if v < base then radixDigits base t (some (a * base + v)) else none
    | _, _ => none

/-- Exact rational value of an unsigned decimal literal `ds . fs E exp`. -/
def decValue (ds fs : List Char) (exp : ℤ) : ℚ :=
  let base : ℚ := (natOfDigits ds : ℚ) + Rat.divInt (natOfDigits fs) ((10 : ℤ) ^ fs.length)
  if 0 ≤ exp then base * (10 : ℚ) ^ exp.toNat else base / (10 : ℚ) ^ (-exp).toNat

/-- Signed decimal literal part of `Number(string)`; `Infinity` maps to `none`
(not finite). -/
def jsDecLit (t : List Char) : Option ℚ :=
  let (neg, r) : Bool × List Char :=
    match t with
    | '+' :: u => (false, u)
    | '-' :: u => (true, u)
    | _ => (false, t)
  if r = "Infinity".data then none
  else
    let ds := r.takeWhile isDigitC
    let r2 := r.dropWhile isDigitC
    let fracStep : Option (List Char × List Char) :=
      match r2 with
      | '.' :: u => some (u.takeWhile isDigitC, u.dropWhile isDigitC)
      | _ => some ([], r2)
    match fracStep with
    | none => none
    | some (fs, r3) =>
      if ds = [] && fs = [] then none
      else
        let expStep : Option (ℤ × List Char) :=
          match r3 with
          | e :: u =>
            if e = 'e' || e = 'E' then
              let (eneg, v) : Bool × List Char :=
                match u with
                | '+' :: w => (false, w)
                | '-' :: w => (true, w)
                | _ => (false, u)
              let es := v.takeWhile isDigitC
              if es = [] then none
              else some ((if eneg then -(natOfDigits es : ℤ) else (natOfDigits es : ℤ)),
                         v.dropWhile isDigitC)
            else some (0, r3)
          | [] => some (0, r3)
        match expStep with
        | none => none
        | some (ex, r4) =>
          if r4 = [] then
            let v := decValue ds fs ex
            some (if neg then -v else v)
          else none

/-- Model of JS `Number(string)` returning `none` for `NaN` and for non-finite
values (the source only ever uses the result through a `Number.isFinite` guard,
so the two cases are indistinguishable to it). -/
def jsNumCore (t : List Char) : Option ℚ :=
  match t with
  | '0' :: x :: rest =>
    if x = 'x' || x = 'X' then
      if rest = [] then none else (radixDigits 16 rest (some 0)).map (fun n => (n : ℚ))
    else if x = 'o' || x = 'O' then
      if rest = [] then none else (radixDigits 8 rest (some 0)).map (fun n => (n : ℚ))
    else if x = 'b' || x = 'B' then
      if rest = [] then none else (radixDigits 2 rest (some 0)).map (fun n => (n : ℚ))
    else jsDecLit t
  | _ => jsDecLit t

/-- Model of JS `Number(s)` composed with the `Number.isFinite` test used by
`coerceNumber`: whitespace-trimmed, empty string is `0`. -/
def jsNumber (s : String) : Option ℚ :=
  let t := trimWS s.data
  if t = [] then some 0 else jsNumCore t

/-! ## Range parser data types (parseRanges.ts) -/

/-- Translation of the `ParsedRange` type. -/
structure ParsedRange where
  low : ℚ
  high : ℚ
  unit : Option String := none
  normalizedLabel : String
deriving DecidableEq, Repr

/-- Translation of the `RangeParseResult` type. -/
structure RangeParseResult where
  range : ParsedRange
  confidence : ℤ
  reasons : List String
deriving DecidableEq, Repr

/-! ## Value-token parsing (`parseValueToken`, `stripPunct`, `mergeUnit`, `chooseUnit`) -/

/-- Leading punctuation class of the strip regex: `(`, `"`, `'`. -/
def isLeadPunct (c : Char) : Bool := c = '(' || c = '"' || c = Char.ofNat 39

/-- Trailing punctuation class of the strip regex: `)`, `"`, `'`, `,`, `.`, `?`. -/
def isTrailPunct (c : Char) : Bool :=
  c = ')' || c = '"' || c = Char.ofNat 39 || c = ',' || c = '.' || c = '?'

/-- Drops the leading run matched by `^[("']+`. -/
def stripLeadPunct (cs : List Char) : List Char := cs.dropWhile isLeadPunct

/-- Drops the trailing run matched by `[)"',.?]+$`. -/
def stripTrailPunct (cs : List Char) : List Char :=
  (cs.reverse.dropWhile isTrailPunct).reverse

/-- Translation of `stripPunct`: strip both punctuation runs, then trim. -/
def stripPunctChars (cs : List Char) : List Char :=
  trimWS (stripTrailPunct (stripLeadPunct cs))

/-- Translation of `mergeUnit`. -/
def mergeUnit (existing : Option String) (incoming : String) : String :=
  match existing with
  | none => incoming
  | some e => if e = "°" && (incoming = "°c" || incoming = "°f") then incoming else e

/-- Translation of `chooseUnit`: specific degrees beat `$` and `%`; a bare degree
sign is discarded. -/
def chooseUnit (a b : Option String) : Option String :=
  match ["°c", "°f", "°", "$", "%"].find? (fun p => a = some p || b = some p) with
  | some p => if p = "°" then none else some p
  | none => match a with
    | some x => some x
    | none => b

/-- Splits a digit-and-comma run at the commas. -/
def splitOnComma : List Char → List (List Char)
  | [] => [[]]
  | c :: t =>
    if c = ',' then [] :: splitOnComma t
    else
      match splitOnComma t with
      | g :: gs => (c :: g) :: gs
      | [] => [[c]]

/-- Whether a digit/comma run matches the anchored numeric alternation
`-?\d{1,3}(?:,\d{3})*(?:\.\d+)?|-?\d+(?:\.\d+)?` (integer part only): either no
commas at all, or 1–3 leading digits followed by comma-separated groups of
exactly 3 digits. -/
def validIntRun (cs : List Char) : Bool :=
  match splitOnComma cs with
  | [] => false
  | [g] => decide (1 ≤ g.length)
  | g :: rest => (1 ≤ g.length && g.length ≤ 3) && rest.all (fun r => r.length = 3)

/-- Case-insensitive match of the trailing unit alternation `%|°c|°f|c|f`,
already normalized as the source does (`c` to `°c`, `f` to `°f`). -/
def matchUnitNormAt (cs : List Char) : Option String × List Char :=
  match cs with
  | '%' :: r => (some "%", r)
  | '°' :: c :: r =>
    if c = 'c' || c = 'C' then (some "°c", r)
    else if c = 'f' || c = 'F' then (some "°f", r)
    else (none, cs)
  | c :: r =>
    if c = 'c' || c = 'C' then (some "°c", r)
    else if c = 'f' || c = 'F' then (some "°f", r)
    else (none, cs)
  | [] => (none, cs)

/-- Translation of `parseValueToken`: strip punctuation, take optional `$` and
`°` prefixes, then the anchored number/magnitude/unit regex. Returns the scaled
value and the merged unit. -/
def parseValueToken (raw : List Char) : Option (ℚ × Option String) :=
  let t2 := stripTrailPunct (stripLeadPunct (trimWS raw))
  let pfx1 : Option String × List Char :=
    match t2 with
    | '$' :: r => (some "$", r)
    | _ => (none, t2)
  let pfx2 : Option String × List Char :=
    match pfx1.2 with
    | '°' :: r => (some (pfx1.1.getD "°"), r)
    | _ => pfx1
  let sgn : Bool × List Char :=
    match pfx2.2 with
    | '-' :: r => (true, r)
    | _ => (false, pfx2.2)
  let intRun := sgn.2.takeWhile (fun c => isDigitC c || c = ',')
  let t6 := sgn.2.dropWhile (fun c => isDigitC c || c = ',')
  if intRun = [] then none
  else if !(isDigitC (intRun.headI)) then none
  else if !(validIntRun intRun) then none
  else
    let fracStep : Option (List Char × List Char) :=
      match t6 with
      | '.' :: r =>
        let fs := r.takeWhile isDigitC
        if fs = [] then none else some (fs, r.dropWhile isDigitC)
      | _ => some ([], t6)
    match fracStep with
    | none => none
    | some (fs, t7) =>
      let magStep : ℚ × List Char :=
        match t7 with
        | c :: r =>
          if c = 'k' || c = 'K' then (1000, r)
          else if c = 'm' || c = 'M' then (1000000, r)
          else (1, t7)
        | [] => (1, t7)
      let uStep := matchUnitNormAt magStep.2
      if uStep.2 = [] then
        let n := decValue (intRun.filter isDigitC) fs 0
        let value := (if sgn.1 then -n else n) * magStep.1
        let unit : Option String :=
          match uStep.1 with
          | some u => some (mergeUnit pfx2.1 u)
          | none => pfx2.1
        some (value, unit)
      else none

/-! ## Leftmost matchers for the two recognized range patterns -/

/-- Matches one side token of the dash pattern
`\$?[-]?\d[\d,]*(?:\.\d+)?(?:[km])?(?:%|°c|°f|c|f)?` at the head of the list,
returning the matched characters and the remainder. Greedy quantifier choices
are deterministic for this pattern (no later piece can consume a digit, comma
or the characters each optional piece takes), so no backtracking is needed. -/
def matchSideAt (cs : List Char) : Option (List Char × List Char) :=
  let d1 : List Char × List Char :=
    match cs with
    | '$' :: t => (['$'], t)
    | _ => ([], cs)
  let d2 : List Char × List Char :=
    match d1.2 with
    | '-' :: t => (['-'], t)
    | _ => ([], d1.2)
  match d2.2 with
  | [] => none
  | c :: t =>
    if isDigitC c then
      let ds := t.takeWhile (fun x => isDigitC x || x = ',')
      let r3 := t.dropWhile (fun x => isDigitC x || x = ',')
      let pf : List Char × List Char :=
        match r3 with
        | '.' :: u =>
          let fs := u.takeWhile isDigitC
          if fs = [] then ([], r3) else ('.' :: fs, u.dropWhile isDigitC)
        | _ => ([], r3)
      let pm : List Char × List Char :=
        match pf.2 with
        | k :: u =>
          if k = 'k' || k = 'K' || k = 'm' || k = 'M' then ([k], u) else ([], pf.2)
        | [] => ([], pf.2)
      let pu : List Char × List Char :=
        match pm.2 with
        | '%' :: r => (['%'], r)
        | '°' :: u :: r =>
          if u = 'c' || u = 'C' || u = 'f' || u = 'F' then (['°', u], r) else ([], pm.2)
        | u :: r =>
          if u = 'c' || u = 'C' || u = 'f' || u = 'F' then ([u], r) else ([], pm.2)
        | [] => ([], pm.2)
      some (d1.1 ++ d2.1 ++ c :: ds ++ pf.1 ++ pm.1 ++ pu.1, pu.2)
    else none

/-- Matches the separator `\s*(?:-|to)\s*` (case-insensitive `to`) at the head. -/
def matchSepAt (cs : List Char) : Option (List Char × List Char) :=
  let w1 := cs.takeWhile isWSC
  let r1 := cs.dropWhile isWSC
  match r1 with
  | '-' :: t => some (w1 ++ '-' :: t.takeWhile isWSC, t.dropWhile isWSC)
  | a :: b :: t =>
    if (a = 't' || a = 'T') && (b = 'o' || b = 'O') then
      some (w1 ++ a :: b :: t.takeWhile isWSC, t.dropWhile isWSC)
    else none
  | _ => none

/-- Attempts the full dash pattern at the current position; returns the two
captured side tokens, all matched characters, and the remainder. -/
def tryDashAt (cs : List Char) : Option (List Char × List Char × List Char × List Char) :=
  match matchSideAt cs with
  | none => none
  | some (a, r1) =>
    match matchSepAt r1 with
    | none => none
    | some (sep, r2) =>
      match matchSideAt r2 with
      | none => none
      | some (b, r3) => some (a, b, a ++ sep ++ b, r3)

/-- Leftmost match of the dash pattern: `(pre, aTok, bTok, matched, rest)`. -/
def findDashAux : List Char → Option (List Char × List Char × List Char × List Char × List Char)
  | [] => none
  | c :: t =>
    match tryDashAt (c :: t) with
    | some (a, b, m, rest) => some ([], a, b, m, rest)
    | none =>
      match findDashAux t with
      | some (pre, a, b, m, rest) => some (c :: pre, a, b, m, rest)
      | none => none

/-- Case-insensitive literal prefix match (pattern given in lower case);
returns the matched original characters and the remainder. -/
def ciLit : List Char → List Char → Option (List Char × List Char)
  | [], cs => some ([], cs)
  | _ :: _, [] => none
  | p :: ps, c :: cs =>
    if toLowerC c = p then
      match ciLit ps cs with
      | some (m, r) => some (c :: m, r)
      | none => none
    else none

/-- Attempts `between\s+(\S+)\s+and\s+(\S+)` (case-insensitive) at the current
position. -/
def tryBetweenAt (cs : List Char) : Option (List Char × List Char × List Char × List Char) :=
  match ciLit "between".data cs with
  | none => none
  | some (m1, r1) =>
    let w1 := r1.takeWhile isWSC
    if w1 = [] then none
    else
      let r2 := r1.dropWhile isWSC
      let a := r2.takeWhile (fun c => !isWSC c)
      if a = [] then none
      else
        let r3 := r2.dropWhile (fun c => !isWSC c)
        let w2 := r3.takeWhile isWSC
        if w2 = [] then none
        else
          let r4 := r3.dropWhile isWSC
          match ciLit "and".data r4 with
          | none => none
          | some (m2, r5) =>
            let w3 := r5.takeWhile isWSC
            if w3 = [] then none
            else
              let r6 := r5.dropWhile isWSC
              let b := r6.takeWhile (fun c => !isWSC c)
              if b = [] then none
              else
                some (a, b, m1 ++ w1 ++ a ++ w2 ++ m2 ++ w3 ++ b,
                      r6.dropWhile (fun c => !isWSC c))

/-- Leftmost match of the between pattern: `(pre, aTok, bTok, matched, rest)`. -/
def findBetweenAux : List Char → Option (List Char × List Char × List Char × List Char × List Char)
  | [] => none
  | c :: t =>
    match tryBetweenAt (c :: t) with
    | some (a, b, m, rest) => some ([], a, b, m, rest)
    | none =>
      match findBetweenAux t with
      | some (pre, a, b, m, rest) => some (c :: pre, a, b, m, rest)
      | none => none

/-! ## Season/year guard and sanity band (`isLikelySeasonOrYearRange`, `isSaneSpan`) -/

/-- Whether `pat` occurs at the head of the text. -/
def leadsWith : List Char → List Char → Bool
  | [], _ => true
  | _ :: _, [] => false
  | p :: ps, c :: cs => p = c && leadsWith ps cs

/-- Substring containment, JS `String.prototype.includes`. -/
def containsSub (pat : List Char) : List Char → Bool
  | [] => pat.isEmpty
  | c :: t => leadsWith pat (c :: t) || containsSub pat t

/-- Whether a 4-digit year token `(19|20)\d{2}` starts at the head position with
a right word boundary. -/
def yearAt (l : List Char) : Bool :=
  match l with
  | a :: b :: c :: d :: rest =>
    ((a = '1' && b = '9') || (a = '2' && b = '0')) && isDigitC c && isDigitC d &&
      (match rest with
       | [] => true
       | e :: _ => !isWordC e)
  | _ => false

/-- Scan for `\b(19|20)\d{2}\b`; the boolean tracks whether the current position
has a left word boundary. -/
def hasYearGo : Bool → List Char → Bool
  | _, [] => false
  | lb, c :: t => (lb && yearAt (c :: t)) || hasYearGo (!isWordC c) t

/-- Translation of the `hasYear` test `\b(19|20)\d{2}\b.test(t)`. -/
def hasYearToken (t : List Char) : Bool := hasYearGo true t

/-- Translation of `isLikelySeasonOrYearRange`; the guards apply only to
unit-less ranges. -/
def isLikelySeasonOrYearRange (fullText : List Char) (r : ParsedRange) : Bool :=
  match r.unit with
  | some _ => false
  | none =>
    let t := fullText.map toLowerC
    let hasYear := hasYearToken t
    if containsSub "season".data t && hasYear then true
    else if 1900 ≤ r.low && r.high ≤ 2100 then true
    else if hasYear && (1900 ≤ r.low || 1900 ≤ r.high) && (r.low < 100 || r.high < 100) then true
    else false

/-- Translation of `isSaneSpan`. -/
def isSaneSpan (r : ParsedRange) (fullText : List Char) : Bool :=
  let span := r.high - r.low
  let absHigh := max |r.high| |r.low|
  if r.unit = some "%" then 0 < span && span ≤ 100 && 0 ≤ r.low && r.high ≤ 100
  else if r.unit = some "°c" || r.unit = some "°f" then
    0 < span && span ≤ 200 && absHigh ≤ 300
  else if r.unit = some "$" then 0 < span && span ≤ 50000000
  else if isLikelySeasonOrYearRange fullText r then false
  else 0 < span && span ≤ 5000000

/-! ## Extra-number counting (`countExtraNonYearNumbers`) -/

/-- Matches `\d+(?:\.\d+)?` at the head of the list. -/
def numCore (cs : List Char) : Option (ℚ × List Char) :=
  match cs with
  | c :: _ =>
    if isDigitC c then
      let ds := cs.takeWhile isDigitC
      let t2 := cs.dropWhile isDigitC
      match t2 with
      | '.' :: u =>
        let fs := u.takeWhile isDigitC
        if fs = [] then some ((natOfDigits ds : ℚ), t2)
        else some (decValue ds fs 0, u.dropWhile isDigitC)
      | _ => some ((natOfDigits ds : ℚ), t2)
    else none
  | [] => none

/-- Matches `-?\d+(?:\.\d+)?` at the head of the list. -/
def numTokAt (cs : List Char) : Option (ℚ × List Char) :=
  match cs with
  | '-' :: t =>
    match numCore t with
    | some (v, r) => some (-v, r)
    | none => numCore cs
  | _ => numCore cs

/-- Fuelled global scan for `-?\d+(?:\.\d+)?`, mirroring `matchAll`. -/
def scanNumsGo : ℕ → List Char → List ℚ
  | 0, _ => []
  | _ + 1, [] => []
  | fuel + 1, c :: t =>
    match numTokAt (c :: t) with
    | some (v, rest) => v :: scanNumsGo fuel rest
    | none => scanNumsGo fuel t

/-- All numbers occurring in the text, leftmost non-overlapping. -/
def scanNums (cs : List Char) : List ℚ := scanNumsGo cs.length cs

/-- Translation of `countExtraNonYearNumbers`: numbers that are neither 4-digit
years (1900–2100) nor approximately one of the two endpoints. -/
def countExtraNonYearNumbers (text : List Char) (r : ParsedRange) : ℕ :=
  let nums := scanNums text
  (nums.filter fun n =>
    !(n.den = 1 && 1900 ≤ n && n ≤ 2100) &&
    !(|n - r.low| < 1 / 1000000000) &&
    !(|n - r.high| < 1 / 1000000000)).length

/-! ## Pair resolution (`parseRangeTokens`) and the public parser API -/

/-- Case-insensitive test for a magnitude letter followed by a word boundary,
JS `/k\b/i` and `/m\b/i`. -/
def hasMagBoundary (target : Char) : List Char → Bool
  | [] => false
  | [c] => toLowerC c = target
  | c :: d :: t => (toLowerC c = target && !isWordC d) || hasMagBoundary target (d :: t)

/-- Translation of `formatNormalizedLabel`. -/
def formatNormalizedLabel (low high : ℚ) (unit : Option String) : String :=
  let base := stripTrailingZeros low ++ "-" ++ stripTrailingZeros high
  match unit with
  | some u => base ++ u
  | none => base

/-- Tail of `parseRangeTokens`: order the endpoints, reject a degenerate pair,
attach the chosen unit and the normalized label. -/
def mkOrderedRange (av bv : ℚ) (unit : Option String) : Option ParsedRange :=
  if min av bv = max av bv then none
  else
    some { low := min av bv, high := max av bv, unit := unit,
           normalizedLabel := formatNormalizedLabel (min av bv) (max av bv) unit }

/-- Translation of `parseRangeTokens`: parse both side tokens, propagate a
one-sided `k`/`m` magnitude to a small unsuffixed side, order the endpoints and
reject degenerate pairs. -/
def parseRangeTokens (aRaw bRaw : List Char) : Option ParsedRange :=
  match parseValueToken aRaw, parseValueToken bRaw with
  | some a, some b =>
    let aS := stripPunctChars aRaw
    let bS := stripPunctChars bRaw
    let aHasK := hasMagBoundary 'k' aS
    let bHasK := hasMagBoundary 'k' bS
    let aHasM := hasMagBoundary 'm' aS
    let bHasM := hasMagBoundary 'm' bS
    let bv1 := if aHasK && !bHasK && !bHasM && |b.1| < 1000 then b.1 * 1000 else b.1
    let av1 := if bHasK && !aHasK && !aHasM && |a.1| < 1000 then a.1 * 1000 else a.1
    let bv2 := if aHasM && !bHasM && !bHasK && |bv1| < 1000 then bv1 * 1000000 else bv1
    let av2 := if bHasM && !aHasM && !aHasK && |av1| < 1000 then av1 * 1000000 else av1
    mkOrderedRange av2 bv2 (chooseUnit a.2 b.2)
  | _, _ => none

/-- Shared body of the two pattern blocks of `parseRangeFromText`: given the
leftmost match of one pattern over the cleaned text, parse the captured tokens
and apply the season/year guard. -/
def tryPattern (cs : List Char)
    (fm : Option (List Char × List Char × List Char × List Char × List Char)) :
    Option ParsedRange :=
  match fm with
  | some (_, a, b, _, _) =>
    match parseRangeTokens a b with
    | some r => if isLikelySeasonOrYearRange cs r then none else some r
    | none => none
  | none => none

/-- Translation of `parseRangeFromText`: pattern 1 (`between A and B`), then
pattern 2 (`A - B` / `A to B`), each leftmost-only and subject to the
season/year guard. -/
def parseRangeFromText (text : String) : Option ParsedRange :=
  match tryPattern (normalizeChars text.data) (findBetweenAux (normalizeChars text.data)) with
  | some r => some r
  | none => tryPattern (normalizeChars text.data) (findDashAux (normalizeChars text.data))

/-- The clean-form test of `parseRangeWithConfidence`: either pattern matches
the cleaned text. -/
def cleanFormB (cleaned : String) : Bool :=
  (findBetweenAux cleaned.data).isSome || (findDashAux cleaned.data).isSome

/-- The sane-span test of `parseRangeWithConfidence`: positive span within the
unit band. -/
def saneOkB (cleaned : String) (range : ParsedRange) : Bool :=
  decide (0 < range.high - range.low) && isSaneSpan range cleaned.data

/-- Confidence and reasons assembled by `parseRangeWithConfidence` once a range
has been parsed: +2 for a clean matched form, +1 for a sane span, a single
−2 when extra non-year numbers are present. -/
def confidenceResult (cleaned : String) (range : ParsedRange) : RangeParseResult :=
  { range := range
    confidence :=
      (if cleanFormB cleaned then (2 : ℤ) else 0) +
        (if saneOkB cleaned range then 1 else 0) -
        (if 0 < countExtraNonYearNumbers cleaned.data range then 2 else 0)
    reasons :=
      (if cleanFormB cleaned then ["cleanRangeForm"] else []) ++
        (if saneOkB cleaned range then ["saneSpan"] else []) ++
        (if 0 < countExtraNonYearNumbers cleaned.data range then
          ["extraNumbers(" ++ natRepr (countExtraNonYearNumbers cleaned.data range) ++ ")"]
         else []) }

/-- Translation of `parseRangeWithConfidence`: +2 for a clean matched form, +1
for a sane span, a single −2 when extra non-year numbers are present. -/
def parseRangeWithConfidence (text : String) : Option RangeParseResult :=
  match parseRangeFromText (normalizeStr text) with
  | none => none
  | some range => some (confidenceResult (normalizeStr text) range)

/-- Result type of `removeFirstRangeForGrouping`. -/
structure GroupingSplit where
  base : String
  range : Option ParsedRange := none
deriving DecidableEq, Repr

/-- Translation of `removeFirstRangeForGrouping`: remove the first matched
range-like substring (replacing it by a space, collapsing whitespace and
trimming), unless the parsed range trips the season/year guard. -/
def removeFirstRangeForGrouping (text : String) : GroupingSplit :=
  let ncs := normalizeChars text.data
  match findBetweenAux ncs with
  | some (pre, a, b, _, rest) =>
    match parseRangeTokens a b with
    | some r =>
      if isLikelySeasonOrYearRange ncs r then { base := String.mk (trimWS ncs) }
      else { base := String.mk (trimWS (collapseWS (pre ++ ' ' :: rest))), range := some r }
    | none => { base := String.mk (trimWS (collapseWS (pre ++ ' ' :: rest))) }
  | none =>
    match findDashAux ncs with
    | some (pre, a, b, _, rest) =>
      match parseRangeTokens a b with
      | some r =>
        if isLikelySeasonOrYearRange ncs r then { base := String.mk (trimWS ncs) }
        else { base := String.mk (trimWS (collapseWS (pre ++ ' ' :: rest))), range := some r }
      | none => { base := String.mk (trimWS (collapseWS (pre ++ ' ' :: rest))) }
    | none => { base := String.mk (trimWS ncs) }

/-! ## Market normalizer (normalizeMarkets.ts) -/

/-- JSON value tree, the codomain of the host primitive `JSON.parse`. -/
inductive JVal where
  | null
  | bool (b : Bool)
  | num (q : ℚ)
  | str (v : String)
  | arr (xs : List JVal)
  | obj (fields : List (String × JVal))

/-- A value that the loose Gamma schema types as `string | number`. -/
inductive StrNum where
  | s (v : String)
  | n (v : ℚ)
deriving DecidableEq, Repr

/-- Entry of the loose `events` array (`{ id?, title? }`). -/
structure GammaEventLoose where
  id : Option StrNum := none
  title : Option String := none
deriving DecidableEq, Repr

/-- Translation of the Zod schema `GammaMarketLooseZ`: every recognized field is
optional, with the string-or-number and string-encoded-array unions made
explicit. -/
structure GammaMarketLoose where
  id : Option StrNum := none
  market_id : Option StrNum := none
  conditionId : Option String := none
  condition_id : Option String := none
  question : Option String := none
  title : Option String := none
  name : Option String := none
  slug : Option String := none
  url : Option String := none
  event_id : Option StrNum := none
  eventId : Option StrNum := none
  events : Option (List GammaEventLoose) := none
  outcomes : Option (List String ⊕ String) := none
  outcomePrices : Option (List StrNum ⊕ String) := none
  outcome_prices : Option (List StrNum ⊕ String) := none
  liquidityNum : Option ℚ := none
  volumeNum : Option ℚ := none
  liquidity : Option StrNum := none
  volume : Option StrNum := none
  liquidityClob : Option StrNum := none
  volumeClob : Option StrNum := none
deriving DecidableEq, Repr

/-- Translation of the `NormalizedMarket` type; the `prices` record is an
insertion-ordered association list (later writes overwrite in place, as JS
object assignment does). -/
structure NormalizedMarket where
  marketId : String
  title : String
  eventId : Option String := none
  outcomes : List String
  prices : List (String × Option ℚ)
  yes_price : Option ℚ
  liquidity : Option ℚ := none
  volume : Option ℚ := none
deriving DecidableEq, Repr

/-- Translation of the `NormalizeMarketsStats` type. -/
structure NormalizeMarketsStats where
  inputMarkets : ℕ
  keptMarkets : ℕ
  marketsWithOutcomes : ℕ
  marketsWithPrices : ℕ
  binaryMarkets : ℕ
  multiOutcomeMarkets : ℕ
deriving DecidableEq, Repr

/-- JS object property assignment on an association list: overwrite in place,
else append. -/
def upsertAssoc (k : String) (v : Option ℚ) : List (String × Option ℚ) → List (String × Option ℚ)
  | [] => [(k, v)]
  | (k2, v2) :: t => if k2 = k then (k, v) :: t else (k2, v2) :: upsertAssoc k v t

/-- JS object property lookup on an association list. -/
def lookupAssoc (k : String) : List (String × Option ℚ) → Option (Option ℚ)
  | [] => none
  | (k2, v) :: t => if k2 = k then some v else lookupAssoc k t

/-- Translation of `stringifyId`: trimmed nonempty strings pass through, finite
numbers are stringified, everything else is `undefined`. -/
def stringifyId : Option StrNum → Option String
  | some (.s v) => let t := jsTrim v; if t = "" then none else some t
  | some (.n q) => some (qToString q)
  | none => none

/-- Translation of `coerceNumber` on a `string | number` value. -/
def coerceNumberSN : StrNum → Option ℚ
  | .n q => some q
  | .s v => jsNumber v

/-- Translation of `coerceNumber` applied to an optional field (absent maps to
`null`). -/
def coerceNumOpt (v : Option StrNum) : Option ℚ :=
  match v with
  | some sn => coerceNumberSN sn
  | none => none

/-- Translation of `coerceNumber` on an arbitrary JSON value. -/
def coerceNumberJV : JVal → Option ℚ
  | .num q => some q
  | .str v => jsNumber v
  | _ => none

/-- Collects a JSON array whose entries are all strings. -/
def allStringsJV : List JVal → Option (List String)
  | [] => some []
  | .str v :: t =>
    match allStringsJV t with
    | some r => some (v :: r)
    | none => none
  | _ => none

/-- Translation of `coerceStringArray` for the schema-typed `outcomes` field:
a native string array passes through, a string is JSON-parsed and accepted only
if it decodes to a string array. -/
def coerceStringArray (jp : String → Option JVal) :
    Option (List String ⊕ String) → Option (List String)
  | some (.inl xs) => some xs
  | some (.inr v) =>
    match jp v with
    | some (.arr ys) => allStringsJV ys
    | _ => none
  | none => none

/-- Shared tail of `coerceNumberArray`: `undefined` when no entry parses,
otherwise the entry list with `NaN` (here `none`) in unparseable slots. -/
def coerceNumArrCore (xs : List (Option ℚ)) : Option (List (Option ℚ)) :=
  if xs.all (fun x => x.isNone) then none else some xs

/-- Translation of `coerceNumberArray` for the schema-typed price fields. -/
def coerceNumberArray (jp : String → Option JVal) :
    Option (List StrNum ⊕ String) → Option (List (Option ℚ))
  | some (.inl xs) => coerceNumArrCore (xs.map coerceNumberSN)
  | some (.inr v) =>
    match jp v with
    | some (.arr ys) => coerceNumArrCore (ys.map coerceNumberJV)
    | _ => none
  | none => none

/-- Translation of `deriveYesPrice`: price of the first outcome named like
yes/y/true (case-insensitively, trimmed), else the first outcome, else `null`. -/
def deriveYesPrice (outcomes : List String) (prices : List (String × Option ℚ)) : Option ℚ :=
  match outcomes with
  | [] => none
  | first :: _ =>
    match outcomes.find? (fun name =>
        let t := (jsTrim name).data.map toLowerC
        t = "yes".data || t = "y".data || t = "true".data) with
    | some name => (lookupAssoc name prices).getD none
    | none => (lookupAssoc first prices).getD none

/-- Positional zip of outcomes with parsed prices: entries beyond the price
array, like `NaN` entries, become `null`. -/
def fillPrices (acc : List (String × Option ℚ)) :
    List String → List (Option ℚ) → List (String × Option ℚ)
  | [], _ => acc
  | name :: ns, [] => fillPrices (upsertAssoc name none acc) ns []
  | name :: ns, p :: ps => fillPrices (upsertAssoc name p acc) ns ps

/-- Whether the source loop would take the priced branch for this record
(`outcomes.length && priceArr?.length`). -/
def hasPricesFlag (jp : String → Option JVal) (m : GammaMarketLoose) : Bool :=
  (coerceStringArray jp m.outcomes).getD [] ≠ [] &&
    match coerceNumberArray jp (m.outcomePrices <|> m.outcome_prices) with
    | some (_ :: _) => true
    | _ => false

/-- Body of the `normalizeGammaMarkets` loop for one record; `none` when the
record yields no market identifier and is dropped. -/
def normalizeOne (jp : String → Option JVal) (m : GammaMarketLoose) : Option NormalizedMarket :=
  match stringifyId (m.id <|> m.market_id <|> m.conditionId.map .s <|> m.condition_id.map .s) with
  | none => none
  | some marketId =>
    let title := jsTrim ((m.question <|> m.title <|> m.name <|> m.slug).getD marketId)
    let eventId := stringifyId (m.event_id <|> m.eventId <|> (m.events.bind List.head?).bind (·.id))
    let outcomes := (coerceStringArray jp m.outcomes).getD []
    let priceArr := coerceNumberArray jp (m.outcomePrices <|> m.outcome_prices)
    let prices :=
      if hasPricesFlag jp m then fillPrices [] outcomes (priceArr.getD [])
      else outcomes.foldl (fun acc name => upsertAssoc name none acc) []
    some { marketId := marketId
           title := title
           eventId := eventId
           outcomes := outcomes
           prices := prices
           yes_price := deriveYesPrice outcomes prices
           liquidity := coerceNumOpt ((m.liquidityNum.map StrNum.n) <|> m.liquidity <|> m.liquidityClob)
           volume := coerceNumOpt ((m.volumeNum.map StrNum.n) <|> m.volume <|> m.volumeClob) }

/-- Translation of `normalizeGammaMarkets`: normalize each record (dropping the
identifier-less ones) and report the summary statistics the loop accumulates. -/
def normalizeGammaMarkets (jp : String → Option JVal) (raws : List GammaMarketLoose) :
    List NormalizedMarket × NormalizeMarketsStats :=
  let kept := raws.filterMap (normalizeOne jp)
  (kept,
   { inputMarkets := raws.length
     keptMarkets := kept.length
     marketsWithOutcomes := (kept.filter (fun m => m.outcomes ≠ [])).length
     marketsWithPrices :=
       (raws.filter (fun m => (normalizeOne jp m).isSome && hasPricesFlag jp m)).length
     binaryMarkets := (kept.filter (fun m => m.outcomes.length = 2)).length
     multiOutcomeMarkets := (kept.filter (fun m => 3 ≤ m.outcomes.length)).length })

/-! ## Stable sorting (model of `Array.prototype.sort` with a consistent comparator) -/

/-- Inserts `x` after every element `y` with `le y x` (comparator at most 0),
the stable insertion step. -/
def insertBy (le : α → α → Bool) (x : α) : List α → List α
  | [] => [x]
  | y :: ys => if le y x then y :: insertBy le x ys else x :: y :: ys

/-- Stable insertion sort; models JS `sort` for a consistent comparator, with
`le a b` meaning the comparator does not order `a` strictly after `b`. -/
def sortByLe (le : α → α → Bool) (l : List α) : List α :=
  l.foldl (fun acc x => insertBy le x acc) []

/-! ## Family builder (buildFamilies.ts) -/

/-- Kinds of market family. -/
inductive FamilyType where
  | bucket
  | multi
  | single
deriving DecidableEq, Repr

/-- Translation of the `BucketOutcome` type. -/
structure BucketOutcome where
  marketId : String
  label : String
  range : ParsedRange
  yes_price : Option ℚ
  liquidity : Option ℚ := none
  volume : Option ℚ := none
  rangeParseConfidence : ℤ
deriving DecidableEq, Repr

/-- Translation of the `MultiOutcome` type. -/
structure MultiOutcome where
  name : String
  price : Option ℚ
deriving DecidableEq, Repr

/-- Translation of the `single` payload of `MarketFamily`. -/
structure SingleInfo where
  marketId : String
  yes_price : Option ℚ
  liquidity : Option ℚ := none
  volume : Option ℚ := none
deriving DecidableEq, Repr

/-- Translation of the `MarketFamily` type. The optional `buckets`/`multi`
arrays are plain lists since the source only ever tests them through
`?.length`, which identifies `undefined` with `[]`. -/
structure MarketFamily where
  family_id : String
  family_type : FamilyType
  title : String
  num_outcomes : ℕ
  eventId : Option String := none
  buckets : List BucketOutcome := []
  multi : List MultiOutcome := []
  single : Option SingleInfo := none
deriving DecidableEq, Repr

/-- Collapses every run of non-kept characters into a single hyphen. -/
def slugGo (keep : Char → Bool) (prevBad : Bool) : List Char → List Char
  | [] => []
  | c :: t =>
    if keep c then c :: slugGo keep false t
    else if prevBad then slugGo keep true t
    else '-' :: slugGo keep true t

/-- Translation of `slugify`: lower-case, dash variants to `-`, non-alphanumeric
runs collapsed to single hyphens, trimmed of hyphens, capped at 160. -/
def slugify (s : String) : String :=
  let lowered := (s.data.map toLowerC).map dashFix
  let keep := fun c => (('a' ≤ c && c ≤ 'z') || ('0' ≤ c && c ≤ '9'))
  let collapsed := slugGo keep false lowered
  String.mk (((collapsed.dropWhile (· = '-')).reverse.dropWhile (· = '-')).reverse.take 160)

/-- Translation of `bucketKey`. -/
def bucketKey (eventId : Option String) (base : String) : String :=
  let pfx := match eventId with
             | some e => if e = "" then "" else "event:" ++ e ++ ":"
             | none => ""
  pfx ++ "bucket:" ++ slugify base

/-- Accumulator entry for one bucket candidate group. -/
structure BucketGroup where
  family_id : String
  title : String
  eventId : Option String := none
  members : List BucketOutcome
deriving DecidableEq, Repr

/-- Inserts a member into the insertion-ordered group map (JS `Map` semantics:
an existing key keeps its position, a new key is appended). -/
def addGroupMember (key : String) (mk1 : BucketGroup) (member : BucketOutcome) :
    List (String × BucketGroup) → List (String × BucketGroup)
  | [] => [(key, { mk1 with members := [member] })]
  | (k, g) :: t =>
    if k = key then (k, { g with members := g.members ++ [member] }) :: t
    else (k, g) :: addGroupMember key mk1 member t

/-- JS truthiness filter on an optional event identifier (the source spreads
`eventId` only when it is truthy, so the empty string is dropped). -/
def eventIdTruthy : Option String → Option String
  | some v => if v = "" then none else some v
  | none => none

/-- Pass 1 accumulation: group every market whose title parses to a range. -/
def bucketGroupsOf (markets : List NormalizedMarket) : List (String × BucketGroup) :=
  markets.foldl
    (fun groups m =>
      let base := (removeFirstRangeForGrouping m.title).base
      match parseRangeWithConfidence m.title with
      | none => groups
      | some pr =>
        let key := bucketKey m.eventId base
        let member : BucketOutcome :=
          { marketId := m.marketId
            label := pr.range.normalizedLabel
            range := pr.range
            yes_price := m.yes_price
            liquidity := m.liquidity
            volume := m.volume
            rangeParseConfidence := pr.confidence }
        addGroupMember key
          { family_id := key, title := base, eventId := eventIdTruthy m.eventId, members := [] }
          member groups)
    []

/-- Ascending-by-`range.low` comparator used for bucket members. -/
def bucketLe (a b : BucketOutcome) : Bool := a.range.low ≤ b.range.low

/-- Increments the insertion-ordered unit counter. -/
def bumpCount (u : String) : List (String × ℕ) → List (String × ℕ)
  | [] => [(u, 1)]
  | (k, c) :: t => if k = u then (k, c + 1) :: t else (k, c) :: bumpCount u t

/-- Insertion-ordered unit counts of a group (`unitCounts` in the source). -/
def unitCountsOf (g : BucketGroup) : List (String × ℕ) :=
  g.members.foldl (fun acc m => bumpCount (m.range.unit.getD "") acc) []

/-- Dominant unit and its count (strictly-greater update, so ties keep the
first-seen unit). -/
def dominantUnitOf (g : BucketGroup) : String × ℕ :=
  (unitCountsOf g).foldl (fun best uc => if best.2 < uc.2 then (uc.1, uc.2) else best) ("", 0)

/-- Members after the modal-unit confidence bonus and the confidence-at-least-2
filter. -/
def adjustedMembers (g : BucketGroup) : List BucketOutcome :=
  (g.members.map fun m =>
      { m with rangeParseConfidence := m.rangeParseConfidence +
          (if (m.range.unit.getD "") = (dominantUnitOf g).1 ∧ 2 ≤ (dominantUnitOf g).2
           then 1 else 0) }).filter
    fun m => 2 ≤ m.rangeParseConfidence

/-- The sorted, filtered member list of a group (`buckets` in the source). -/
def groupBuckets (g : BucketGroup) : List BucketOutcome :=
  sortByLe bucketLe (adjustedMembers g)

/-- Per-group emission: modal-unit bonus, confidence filter, ascending sort,
and the at-least-2-members requirement. -/
def emitGroup (g : BucketGroup) : Option MarketFamily :=
  if (groupBuckets g).length < 2 then none
  else
    some { family_id := g.family_id
           family_type := .bucket
           title := g.title
           eventId := g.eventId
           num_outcomes := (groupBuckets g).length
           buckets := groupBuckets g }

/-- Pass 2 step: a market already bound into an emitted bucket family is
skipped; markets with 3 or more outcomes become multi families, the rest become
single families. -/
def pass2Step (acc : List MarketFamily) (m : NormalizedMarket) : List MarketFamily :=
  if acc.any (fun f =>
      f.family_type = .bucket && f.buckets.any (fun b => b.marketId = m.marketId)) then acc
  else if 3 ≤ m.outcomes.length then
    acc ++ [{ family_id := "market:" ++ m.marketId
              family_type := .multi
              title := m.title
              eventId := eventIdTruthy m.eventId
              num_outcomes := m.outcomes.length
              multi := m.outcomes.map fun name =>
                { name := name, price := (lookupAssoc name m.prices).getD none } }]
  else
    acc ++ [{ family_id := "market:" ++ m.marketId
              family_type := .single
              title := m.title
              eventId := eventIdTruthy m.eventId
              num_outcomes := m.outcomes.length
              single := some { marketId := m.marketId
                               yes_price := m.yes_price
                               liquidity := m.liquidity
                               volume := m.volume } }]

/-- Numeric priority of a family type in the final ordering. -/
def famPrio : FamilyType → ℕ
  | .bucket => 0
  | .multi => 1
  | .single => 2

/-- Comparator of the final deterministic ordering: buckets before multi before
single, then descending `num_outcomes`. -/
def famLe (a b : MarketFamily) : Bool :=
  famPrio a.family_type < famPrio b.family_type ||
    (famPrio a.family_type = famPrio b.family_type && b.num_outcomes ≤ a.num_outcomes)

/-- Translation of `buildFamilies`: pass 1 bucket grouping, pass 2 multi/single
classification, then the deterministic sort. -/
def buildFamilies (markets : List NormalizedMarket) : List MarketFamily :=
  let pass1 := (bucketGroupsOf markets).filterMap (fun kg => emitGroup kg.2)
  let all := markets.foldl pass2Step pass1
  sortByLe famLe all

/-! ## Anomaly scorer (basicAnomalies.ts) -/

/-- Sum of a list of rationals, JS `reduce((a, b) => a + b, 0)`. -/
def qsum (l : List ℚ) : ℚ := l.foldl (fun a b => a + b) 0

/-- Translation of `clamp01`. -/
def clamp01 (x : ℚ) : ℚ := max 0 (min 1 x)

/-- Validity predicate on a price value: finite and strictly between 0.001 and
0.999 (`isValidProb` on the number itself). -/
def isValidProbQ (q : ℚ) : Bool := 1 / 1000 < q && q < 999 / 1000

/-- Translation of `isValidProb` on a nullable price. -/
def isValidProbO : Option ℚ → Bool
  | some q => isValidProbQ q
  | none => false

/-- The valid prices of a bucket list, in order. -/
def validListOf (bs : List BucketOutcome) : List ℚ :=
  (bs.map (fun b => b.yes_price)).filterMap fun p =>
    match p with
    | some q => if isValidProbQ q then some q else none
    | none => none

/-- Translation of the `overround` computation: sum of valid prices when at
least 2 are valid. -/
def overroundOf (bs : List BucketOutcome) : Option ℚ :=
  if 2 ≤ (validListOf bs).length then some (qsum (validListOf bs)) else none

/-- Number of prices that are missing or invalid. -/
def missingOf (bs : List BucketOutcome) : ℕ := bs.length - (validListOf bs).length

/-- Adjacent pairs of the bucket list. -/
def adjPairs : List BucketOutcome → List (BucketOutcome × BucketOutcome)
  | a :: b :: t => (a, b) :: adjPairs (b :: t)
  | _ => []

/-- Translation of `rangeAdjacencyStats` (gap half): next low strictly above
previous high. -/
def gapCountOf (bs : List BucketOutcome) : ℕ :=
  ((adjPairs bs).filter fun pc => decide (pc.1.range.high < pc.2.range.low)).length

/-- Translation of `rangeAdjacencyStats` (overlap half): next low strictly
below previous high. -/
def overlapCountOf (bs : List BucketOutcome) : ℕ :=
  ((adjPairs bs).filter fun pc => decide (pc.2.range.low < pc.1.range.high)).length

/-- Interior triples of the bucket list. -/
def spikeTriples : List BucketOutcome → List (BucketOutcome × BucketOutcome × BucketOutcome)
  | a :: b :: c :: t => (a, b, c) :: spikeTriples (b :: c :: t)
  | _ => []

/-- Translation of `computeMaxSpike`: over interior buckets with valid
neighbours, the largest deviation from the neighbour average; `null` when no
triple qualifies. -/
def maxSpikeOf (bs : List BucketOutcome) : Option ℚ :=
  let vals := (spikeTriples bs).filterMap fun t =>
    match t.1.yes_price, t.2.1.yes_price, t.2.2.yes_price with
    | some p0, some p1, some p2 =>
      if isValidProbQ p0 && isValidProbQ p1 && isValidProbQ p2 then
        some |p1 - (1 / 2) * (p0 + p2)|
      else none
    | _, _, _ => none
  match vals with
  | [] => none
  | _ => some (vals.foldl max 0)

/-- The epsilon guard of the cluster ratio division (`1e-9`). -/
def clusterEps : ℚ := 1 / 1000000000

/-- Cluster candidate before z-scoring; `ratioQ` is the source field `ratio`. -/
structure ClusterCand where
  labels : List String
  cost : ℚ
  ratioQ : ℚ
deriving DecidableEq, Repr

/-- Best cluster record; `ratioQ` is the source field `ratio`. -/
structure BestCluster where
  labels : List String
  cost : ℚ
  ratioQ : ℚ
  z : ℚ
deriving DecidableEq, Repr

/-- Candidate at window size `k` and start `i`: all cluster and comparison
window members must be valid; the ratio divides by `max windowSum eps`. -/
def candAt (bs : List BucketOutcome) (k i : ℕ) : Option ClusterCand :=
  let cluster := (bs.drop i).take k
  let ps := cluster.map fun b => b.yes_price
  if ps.any (fun p => !isValidProbO p) then none
  else
    let cost := qsum (ps.filterMap id)
    let wStart := i - 2
    let wEnd := min (bs.length - 1) (i + k + 1)
    let window := (bs.drop wStart).take (wEnd + 1 - wStart)
    let wp := window.map fun b => b.yes_price
    if wp.any (fun p => !isValidProbO p) then none
    else
      let windowSum := qsum (wp.filterMap id)
      some { labels := cluster.map fun b => b.label
             cost := cost
             ratioQ := cost / max windowSum clusterEps }

/-- All cluster candidates in source push order (k = 2, 3, 4, then start). -/
def clusterCandidatesOf (bs : List BucketOutcome) : List ClusterCand :=
  (([2, 3, 4] : List ℕ).map fun k =>
    (List.range (bs.length + 1 - k)).filterMap (candAt bs k)).flatten

/-- The guarded z-score of `findBestClusterByLocalMassZ`: 0 unless the standard
deviation exceeds `1e-9`. -/
def zScoreOf (std mean x : ℚ) : ℚ :=
  if clusterEps < std then (x - mean) / std else 0

/-- Translation of `findBestClusterByLocalMassZ`: population z-scores of the
candidate ratios (0 when the standard deviation is at most `1e-9`), keeping the
first candidate attaining the minimum z. The standard deviation is computed by
the abstract square-root parameter `sq` (Math.sqrt). -/
def bestClusterOf (sq : ℚ → ℚ) (bs : List BucketOutcome) : Option BestCluster :=
  let cands := clusterCandidatesOf bs
  match cands with
  | [] => none
  | _ =>
    let mean := qsum (cands.map fun c => c.ratioQ) / (cands.length : ℚ)
    let variance := qsum (cands.map fun c => (c.ratioQ - mean) ^ 2) / (cands.length : ℚ)
    cands.foldl
      (fun best c =>
        match best with
        | none =>
          some { labels := c.labels, cost := c.cost, ratioQ := c.ratioQ,
                 z := zScoreOf (sq variance) mean c.ratioQ }
        | some b =>
          if zScoreOf (sq variance) mean c.ratioQ < b.z then
            some { labels := c.labels, cost := c.cost, ratioQ := c.ratioQ,
                   z := zScoreOf (sq variance) mean c.ratioQ }
          else some b)
      none

/-- Translation of `maxOrNull`. -/
def maxOrNull (xs : List (Option ℚ)) : Option ℚ :=
  xs.foldl
    (fun acc x =>
      match x with
      | some v =>
        match acc with
        | none => some v
        | some m => if m < v then some v else some m
      | none => acc)
    none

/-- Maximum liquidity across members. -/
def liquidityMaxOf (bs : List BucketOutcome) : Option ℚ :=
  maxOrNull (bs.map fun b => b.liquidity)

/-- Maximum volume across members. -/
def volumeMaxOf (bs : List BucketOutcome) : Option ℚ :=
  maxOrNull (bs.map fun b => b.volume)

/-- Translation of the `underroundEdge` term: `max(0, 1 − overround)` only when
the bucket set looks like a contiguous partition (no gaps, no overlaps, at
least 6 buckets) and `overround` is defined. -/
def underroundEdgeOf (bs : List BucketOutcome) : ℚ :=
  if gapCountOf bs = 0 ∧ overlapCountOf bs = 0 ∧ 6 ≤ bs.length then
    match overroundOf bs with
    | some o => max 0 (1 - o)
    | none => 0
  else 0

/-- Translation of the `clusterCheapnessScore` term: `clamp01(−z / 2)`. -/
def clusterCheapnessOf (sq : ℚ → ℚ) (bs : List BucketOutcome) : ℚ :=
  match bestClusterOf sq bs with
  | some b => clamp01 ((-b.z) / 2)
  | none => 0

/-- Translation of the `liquidityScore` term: `clamp01(log10(1 + liquidityMax) / 5)`,
with `lg` the abstract Math.log10. -/
def liquidityScoreOf (lg : ℚ → ℚ) (bs : List BucketOutcome) : ℚ :=
  match liquidityMaxOf bs with
  | some lm => clamp01 (lg (1 + lm) / 5)
  | none => 0

/-- Translation of the additive `penalty`. -/
def penaltyOf (bs : List BucketOutcome) : ℚ :=
  (if 0 < missingOf bs then (1 / 10 : ℚ) else 0) +
    (if 0 < gapCountOf bs then (3 / 20 : ℚ) else 0) +
    (if 0 < overlapCountOf bs then (1 / 4 : ℚ) else 0)

/-- The raw weighted score before penalty and clamping. -/
def bucketRawScoreOf (sq lg : ℚ → ℚ) (bs : List BucketOutcome) : ℚ :=
  (3 / 10) * ((maxSpikeOf bs).getD 0) + (3 / 10) * underroundEdgeOf bs +
    (3 / 10) * clusterCheapnessOf sq bs + (1 / 10) * liquidityScoreOf lg bs

/-- Opportunity score of a bucket family. -/
def bucketScoreOf (sq lg : ℚ → ℚ) (bs : List BucketOutcome) : ℚ :=
  clamp01 (bucketRawScoreOf sq lg bs - penaltyOf bs)

/-- Translation of the `BucketFeatures` type; `bestClusterRatioQ` is the source
field `bestClusterRatio`. -/
structure BucketFeatures where
  validPrices : ℕ
  missingPrices : ℕ
  gapCount : ℕ
  overlapCount : ℕ
  liquidityMax : Option ℚ
  volumeMax : Option ℚ
  overround : Option ℚ
  maxSpike : Option ℚ
  bestCluster : Option BestCluster
  bestClusterRatioQ : Option ℚ
  bestClusterZ : Option ℚ
deriving DecidableEq, Repr

/-- The features record assembled for a bucket family. -/
def mkBucketFeatures (sq : ℚ → ℚ) (bs : List BucketOutcome) : BucketFeatures :=
  { validPrices := (validListOf bs).length
    missingPrices := missingOf bs
    gapCount := gapCountOf bs
    overlapCount := overlapCountOf bs
    liquidityMax := liquidityMaxOf bs
    volumeMax := volumeMaxOf bs
    overround := overroundOf bs
    maxSpike := maxSpikeOf bs
    bestCluster := bestClusterOf sq bs
    bestClusterRatioQ := (bestClusterOf sq bs).map fun b => b.ratioQ
    bestClusterZ := (bestClusterOf sq bs).map fun b => b.z }

/-- Translation of the `FamilyScored` type. -/
structure FamilyScored extends MarketFamily where
  features : Option BucketFeatures := none
  opportunity_score : ℚ
  reasons : List String
deriving DecidableEq, Repr

/-- Model of JS `toFixed(3)` for the human-readable reasons (exact decimal
rounding, ties away from zero). -/
def qToFixed3 (q : ℚ) : String :=
  let neg := q < 0
  let r : ℕ := (⌊|q| * 1000 + 1 / 2⌋).toNat
  (if neg then "-" else "") ++ natRepr (r / 1000) ++ "." ++
    String.mk (padZeros 3 (natDigs (r % 1000)))

/-- Reasons list of a bucket family, in source push order. -/
def bucketReasons (sq : ℚ → ℚ) (bs : List BucketOutcome) : List String :=
  (match overroundOf bs with
   | some o =>
     (if o < 19 / 20 then ["underround " ++ qToFixed3 o] else []) ++
       (if 21 / 20 < o then ["overround " ++ qToFixed3 o] else [])
   | none => ["insufficient prices for overround"]) ++
  (match maxSpikeOf bs with
   | some msp => if 2 / 25 ≤ msp then ["spike " ++ qToFixed3 msp] else []
   | none => []) ++
  (match bestClusterOf sq bs with
   | some b => ["bestCluster cost " ++ qToFixed3 b.cost]
   | none => []) ++
  (if 0 < gapCountOf bs then ["gaps " ++ natRepr (gapCountOf bs)] else []) ++
  (if 0 < overlapCountOf bs then ["overlaps " ++ natRepr (overlapCountOf bs)] else [])

/-- Scoring of a bucket family with nonempty buckets. -/
def scoreBucket (sq lg : ℚ → ℚ) (f : MarketFamily) : FamilyScored :=
  { toMarketFamily := f
    features := some (mkBucketFeatures sq f.buckets)
    opportunity_score := bucketScoreOf sq lg f.buckets
    reasons := bucketReasons sq f.buckets }

/-- Scoring of a multi family with a nonempty outcome list. -/
def scoreMulti (f : MarketFamily) : FamilyScored :=
  let ps := f.multi.map fun o => o.price
  let valid := ps.filterMap fun p =>
    match p with
    | some q => if isValidProbQ q then some q else none
    | none => none
  let missing := ps.length - valid.length
  let sumP : Option ℚ := if 3 ≤ valid.length then some (qsum valid) else none
  let edge : ℚ := match sumP with
                  | some s => |1 - s|
                  | none => 0
  { toMarketFamily := f
    opportunity_score := clamp01 edge
    reasons :=
      (match sumP with
       | none => ["insufficient prices for multi overround"]
       | some s => ["multi overround=" ++ qToFixed3 s]) ++
      (if 0 < missing then ["missingPrices " ++ natRepr missing] else []) }

/-- Translation of the per-family body of `scoreFamilies`. -/
def scoreOne (sq lg : ℚ → ℚ) (f : MarketFamily) : FamilyScored :=
  if f.family_type = .bucket ∧ f.buckets ≠ [] then scoreBucket sq lg f
  else if f.family_type = .multi ∧ f.multi ≠ [] then scoreMulti f
  else { toMarketFamily := f
         opportunity_score := 0
         reasons := ["single/binary (deprioritized in MVP)"] }

/-- Translation of `scoreFamilies`; `sq` and `lg` model Math.sqrt and
Math.log10. -/
def scoreFamilies (sq lg : ℚ → ℚ) (families : List MarketFamily) : List FamilyScored :=
  families.map (scoreOne sq lg)

/-! ## Ranker (rank.ts) -/

/-- Translation of the quality-gate filter predicate of `rankFamilies`; only
bucket families are gated, with absent features defaulting as in the source
(`?? 0` for validPrices, `?? 999` for the failure counters). -/
def gateRank (f : FamilyScored) : Bool :=
  match f.family_type with
  | .bucket =>
    let vp : ℕ := match f.features with
                  | some ft => ft.validPrices
                  | none => 0
    let mp : ℕ := match f.features with
                  | some ft => ft.missingPrices
                  | none => 999
    let gaps : ℕ := match f.features with
                    | some ft => ft.gapCount
                    | none => 999
    let overlaps : ℕ := match f.features with
                        | some ft => ft.overlapCount
                        | none => 999
    let liq : Option ℚ := match f.features with
                          | some ft => ft.liquidityMax
                          | none => none
    if vp < 6 then false
    else if 2 < mp then false
    else if 2 < gaps ∨ 0 < overlaps then false
    else
      match liq with
      | some q => if q < 500 then false else true
      | none => true
  | _ => true

/-- Comparator of the final ranking: descending score, ties by descending
`num_outcomes`; `rankLe a b` holds when `a` need not come after `b`. -/
def rankLe (a b : FamilyScored) : Bool :=
  b.opportunity_score < a.opportunity_score ||
    (a.opportunity_score = b.opportunity_score && b.num_outcomes ≤ a.num_outcomes)

/-- Translation of `rankFamilies`: gate, then stable sort. -/
def rankFamilies (families : List FamilyScored) : List FamilyScored :=
  sortByLe rankLe (families.filter gateRank)

/-! ## Concrete inputs used by the claim theorems -/

/-- Degenerate JSON.parse stand-in (no string field is JSON-decoded). -/
def jpNone : String → Option JVal := fun _ => none

/-- Degenerate Math.sqrt stand-in. -/
def sq0 : ℚ → ℚ := fun _ => 0

/-- Degenerate Math.log10 stand-in. -/
def lg0 : ℚ → ℚ := fun _ => 0

/-- One market of the 8-bucket scenario: title `X i-(i+1)%`, yes price 0.12. -/
def mkC2 (i : ℕ) : NormalizedMarket :=
  { marketId := "m" ++ natRepr i
    title := "X " ++ natRepr i ++ "-" ++ natRepr (i + 1) ++ "%"
    outcomes := ["Yes", "No"]
    prices := [("Yes", some (3 / 25)), ("No", some (22 / 25))]
    yes_price := some (3 / 25) }

/-- The 8 synthetic binary markets `X 0-1%` … `X 7-8%` of the scenario. -/
def c2Markets : List NormalizedMarket := (List.range 8).map mkC2

/-- The bucket member that the scenario produces for index `i`. -/
def c2Bucket (i : ℕ) : BucketOutcome :=
  { marketId := "m" ++ natRepr i
    label := natRepr i ++ "-" ++ natRepr (i + 1) ++ "%"
    range := { low := (i : ℚ), high := ((i : ℚ) + 1), unit := some "%",
               normalizedLabel := natRepr i ++ "-" ++ natRepr (i + 1) ++ "%" }
    yes_price := some (3 / 25)
    rangeParseConfidence := 2 }

/-- The single family that the scenario produces. -/
def c2Family : MarketFamily :=
  { family_id := "bucket:x"
    family_type := .bucket
    title := "X"
    num_outcomes := 8
    buckets := (List.range 8).map c2Bucket }

/-- Two same-titled markets whose ranges coincide (both parse to 3–4%). -/
def c3Markets : List NormalizedMarket :=
  [{ marketId := "a", title := "CPI 3-4%", outcomes := ["Yes", "No"], prices := [],
     yes_price := some (1 / 2) },
   { marketId := "b", title := "CPI 3-4%", outcomes := ["Yes", "No"], prices := [],
     yes_price := some (1 / 2) }]

/-- Raw record whose first present liquidity alias is unparseable while a later
alias parses. -/
def c7Market : GammaMarketLoose :=
  { id := some (.s "a"), liquidity := some (.s "abc"), liquidityClob := some (.s "5") }

/-- Formalization of the claim sentence for C7 (refinement comparison): the
value of the first alias whose value parses to a finite number. -/
def claimFirstParseable (xs : List (Option StrNum)) : Option ℚ :=
  (xs.filterMap fun a =>
    match a with
    | some v => coerceNumberSN v
    | none => none).head?

/-- Raw record with a duplicate outcome list. -/
def c9RawA : GammaMarketLoose :=
  { id := some (.s "a"), outcomes := some (.inl ["Yes", "Yes"]) }

/-- Raw record that reuses the identifier of `c9RawA`. -/
def c9RawB : GammaMarketLoose := { id := some (.s "a") }

/-- A single family used to instantiate universally quantified theorems. -/
def w1Fam : MarketFamily :=
  { family_id := "market:w"
    family_type := .single
    title := "w"
    num_outcomes := 2
    single := some { marketId := "w", yes_price := some (1 / 2) } }

/-- A scored bucket family with explicit features, used as a witness input. -/
def w4Fam : FamilyScored :=
  { family_id := "bucket:w"
    family_type := .bucket
    title := "w"
    num_outcomes := 8
    buckets := (List.range 8).map c2Bucket
    features := some (mkBucketFeatures sq0 ((List.range 8).map c2Bucket))
    opportunity_score := 3 / 250
    reasons := [] }

/-- A scored single family, used as a witness input. -/
def w10Single : FamilyScored :=
  { family_id := "market:w"
    family_type := .single
    title := "w"
    num_outcomes := 2
    single := some { marketId := "w", yes_price := some (1 / 2) }
    opportunity_score := 0
    reasons := ["single/binary (deprioritized in MVP)"] }

/-- The normalized market that `c7Market` produces (liquidity dropped because
the first present alias does not parse). -/
def c7Norm : NormalizedMarket :=
  { marketId := "a", title := "a", outcomes := [], prices := [], yes_price := none }

/-! ## General lemmas: stable sort, clamping -/

theorem insertBy_perm (le : α → α → Bool) (x : α) (l : List α) :
    List.Perm (insertBy le x l) (x :: l) := by
  induction l with
  | nil => simp [insertBy]
  | cons y ys ih =>
    by_cases h : le y x
    · simpa [insertBy, h] using ((ih.cons y).trans (List.Perm.swap x y ys))
    · simp [insertBy, h]

theorem sortByLe_foldl_perm (le : α → α → Bool) :
    ∀ (l acc : List α), List.Perm (l.foldl (fun a x => insertBy le x a) acc) (acc ++ l) := by
  intro l
  induction l with
  | nil => intro acc; simp
  | cons x xs ih =>
    intro acc
    have h1 := ih (insertBy le x acc)
    have h2 : List.Perm (insertBy le x acc ++ xs) ((x :: acc) ++ xs) :=
      (insertBy_perm le x acc).append_right xs
    have h3 : List.Perm ((x :: acc) ++ xs) (acc ++ x :: xs) := by
      simpa using (@List.perm_middle _ x acc xs).symm
    simpa using h1.trans (h2.trans h3)

theorem sortByLe_perm (le : α → α → Bool) (l : List α) : List.Perm (sortByLe le l) l := by
  simpa using sortByLe_foldl_perm le l []

theorem clamp01_nonneg (x : ℚ) : 0 ≤ clamp01 x := le_max_left 0 _

theorem clamp01_le_one (x : ℚ) : clamp01 x ≤ 1 :=
  max_le (by norm_num) (min_le_left _ _)

theorem clamp01_pos {x : ℚ} (h : 0 < x) : 0 < clamp01 x :=
  (lt_min one_pos h).trans_le (le_max_right 0 _)

theorem insertBy_mem {α : Type} (le : α → α → Bool) {x y : α} {l : List α}
    (h : y ∈ insertBy le x l) : y = x ∨ y ∈ l := by
  have := (insertBy_perm le x l).mem_iff.mp h
  simpa using this

theorem insertBy_pairwise {α : Type} (le : α → α → Bool)
    (htrans : ∀ a b c, le a b = true → le b c = true → le a c = true)
    (htot : ∀ a b, le a b = true ∨ le b a = true)
    (x : α) (l : List α) (h : List.Pairwise (fun a b => le a b = true) l) :
    List.Pairwise (fun a b => le a b = true) (insertBy le x l) := by
  induction l with
  | nil => simp [insertBy]
  | cons y ys ih =>
    rcases List.pairwise_cons.mp h with ⟨hy, hys⟩
    cases hle : le y x with
    | true =>
      simp only [insertBy, hle, if_true]
      refine List.pairwise_cons.mpr ⟨?_, ih hys⟩
      intro z hz
      rcases insertBy_mem le hz with rfl | hz2
      · exact hle
      · exact hy z hz2
    | false =>
      simp only [insertBy, hle, Bool.false_eq_true, if_false]
      have hxy : le x y = true := by
        rcases htot x y with h1 | h1
        · exact h1
        · rw [h1] at hle; exact absurd hle (by simp)
      refine List.pairwise_cons.mpr ⟨?_, h⟩
      intro z hz
      rcases List.mem_cons.mp hz with rfl | hz2
      · exact hxy
      · exact htrans x y z hxy (hy z hz2)

theorem sortByLe_pairwise {α : Type} (le : α → α → Bool)
    (htrans : ∀ a b c, le a b = true → le b c = true → le a c = true)
    (htot : ∀ a b, le a b = true ∨ le b a = true)
    (l : List α) : List.Pairwise (fun a b => le a b = true) (sortByLe le l) := by
  have main : ∀ (m acc : List α), List.Pairwise (fun a b => le a b = true) acc →
      List.Pairwise (fun a b => le a b = true)
        (m.foldl (fun a x => insertBy le x a) acc) := by
    intro m
    induction m with
    | nil => intro acc h; simpa using h
    | cons x xs ih =>
      intro acc h
      exact ih _ (insertBy_pairwise le htrans htot x acc h)
  simpa [sortByLe] using main l [] (by simp)

theorem bucketLe_trans (a b c : BucketOutcome) (h1 : bucketLe a b = true)
    (h2 : bucketLe b c = true) : bucketLe a c = true := by
  simp only [bucketLe, decide_eq_true_eq] at *
  exact h1.trans h2

theorem bucketLe_total (a b : BucketOutcome) : bucketLe a b = true ∨ bucketLe b a = true := by
  simp only [bucketLe, decide_eq_true_eq]
  exact le_total _ _

theorem rankLe_trans (a b c : FamilyScored) (h1 : rankLe a b = true)
    (h2 : rankLe b c = true) : rankLe a c = true := by
  simp only [rankLe, Bool.or_eq_true, Bool.and_eq_true, decide_eq_true_eq] at *
  rcases h1 with h1 | ⟨h1e, h1n⟩
  · rcases h2 with h2 | ⟨h2e, h2n⟩
    · exact Or.inl (h2.trans h1)
    · exact Or.inl (h2e ▸ h1)
  · rcases h2 with h2 | ⟨h2e, h2n⟩
    · exact Or.inl (h1e ▸ h2)
    · exact Or.inr ⟨h1e.trans h2e, h2n.trans h1n⟩

theorem rankLe_total (a b : FamilyScored) : rankLe a b = true ∨ rankLe b a = true := by
  simp only [rankLe, Bool.or_eq_true, Bool.and_eq_true, decide_eq_true_eq]
  rcases lt_trichotomy a.opportunity_score b.opportunity_score with h | h | h
  · exact Or.inr (Or.inl h)
  · rcases le_total a.num_outcomes b.num_outcomes with hn | hn
    · exact Or.inr (Or.inr ⟨h.symm, hn⟩)
    · exact Or.inl (Or.inr ⟨h, hn⟩)
  · exact Or.inl (Or.inl h)

/-! ## Claim C10: the ranker neither modifies, duplicates nor creates families -/

/-- Claim C10: for every input list of scored families, the output of
`rankFamilies` is a permutation of exactly those input elements that pass the
quality gate; every field of every surviving family is equal to its value in
the input, because the elements themselves are unchanged. -/
theorem rankFamilies_perm_filter (fams : List FamilyScored) :
    List.Perm (rankFamilies fams) (fams.filter gateRank) :=
  sortByLe_perm rankLe (fams.filter gateRank)

/-! ## Claim C4: quality gate characterization and output order -/

/-- Claim C4: the output of `rankFamilies` is sorted descending by
`opportunity_score` with ties broken descending by `num_outcomes`; every output
family comes from the input and passes the gate; non-bucket families always
pass; and a bucket family carrying features is discarded exactly when
`validPrices < 6`, `missingPrices > 2`, `gapCount > 2`, `overlapCount > 0`, or
`liquidityMax` is present and below 500. -/
theorem rankFamilies_gate_sorted (fams : List FamilyScored) :
    List.Pairwise (fun a b =>
      b.opportunity_score ≤ a.opportunity_score ∧
        (a.opportunity_score = b.opportunity_score → b.num_outcomes ≤ a.num_outcomes))
      (rankFamilies fams)
    ∧ (∀ f, f ∈ rankFamilies fams → f ∈ fams ∧ gateRank f = true)
    ∧ (∀ f : FamilyScored, f.family_type ≠ .bucket → gateRank f = true)
    ∧ (∀ (f : FamilyScored) (ft : BucketFeatures),
        f.family_type = .bucket → f.features = some ft →
        (gateRank f = false ↔
          (ft.validPrices < 6 ∨ 2 < ft.missingPrices ∨ 2 < ft.gapCount ∨
            0 < ft.overlapCount ∨ ∃ q, ft.liquidityMax = some q ∧ q < 500))) := by
  refine ⟨?_, ?_, ?_, ?_⟩
  · have h := sortByLe_pairwise rankLe rankLe_trans rankLe_total (fams.filter gateRank)
    refine h.imp ?_
    intro a b hab
    simp only [rankLe, Bool.or_eq_true, Bool.and_eq_true, decide_eq_true_eq] at hab
    rcases hab with h1 | ⟨h1, h2⟩
    · exact ⟨le_of_lt h1, fun he => absurd (he ▸ h1) (lt_irrefl _)⟩
    · exact ⟨le_of_eq h1.symm, fun _ => h2⟩
  · intro f hf
    have hmem := (sortByLe_perm rankLe (fams.filter gateRank)).mem_iff.mp hf
    exact ⟨(List.mem_filter.mp hmem).1, (List.mem_filter.mp hmem).2⟩
  · intro f hft
    cases hty : f.family_type with
    | bucket => exact absurd hty hft
    | multi => simp [gateRank, hty]
    | single => simp [gateRank, hty]
  · intro f ft hb hf
    simp only [gateRank, hb, hf]
    constructor
    · intro hfalse
      by_cases h1 : ft.validPrices < 6
      · exact Or.inl h1
      by_cases h2 : 2 < ft.missingPrices
      · exact Or.inr (Or.inl h2)
      by_cases h3 : 2 < ft.gapCount
      · exact Or.inr (Or.inr (Or.inl h3))
      by_cases h4 : 0 < ft.overlapCount
      · exact Or.inr (Or.inr (Or.inr (Or.inl h4)))
      refine Or.inr (Or.inr (Or.inr (Or.inr ?_)))
      rcases hliq : ft.liquidityMax with _ | q
      · simp [h1, h2, h3, h4, hliq] at hfalse
      · by_cases h5 : q < 500
        · exact ⟨q, rfl, h5⟩
        · simp [h1, h2, h3, h4, hliq, h5] at hfalse
    · intro hdisj
      by_cases h1 : ft.validPrices < 6
      · simp [h1]
      by_cases h2 : 2 < ft.missingPrices
      · simp [h1, h2]
      by_cases h3 : 2 < ft.gapCount
      · simp [h1, h2, h3]
      by_cases h4 : 0 < ft.overlapCount
      · simp [h1, h2, h3, h4]
      rcases hdisj with h | h | h | h | ⟨q, hq, hlt⟩
      · exact absurd h h1
      · exact absurd h h2
      · exact absurd h h3
      · exact absurd h h4
      · simp [h1, h2, h3, h4, hq, hlt]

/-- Witness for C4 at concrete inputs: a bucket family with 8 valid prices
passes the gate and survives ranking, a single family always passes, and the
gate characterization evaluates at its features. -/
theorem rankFamilies_gate_sorted_witness :
    (w4Fam ∈ [w4Fam] ∧ gateRank w4Fam = true)
    ∧ gateRank w10Single = true
    ∧ (gateRank w4Fam = false ↔
        ((mkBucketFeatures sq0 ((List.range 8).map c2Bucket)).validPrices < 6 ∨
          2 < (mkBucketFeatures sq0 ((List.range 8).map c2Bucket)).missingPrices ∨
          2 < (mkBucketFeatures sq0 ((List.range 8).map c2Bucket)).gapCount ∨
          0 < (mkBucketFeatures sq0 ((List.range 8).map c2Bucket)).overlapCount ∨
          ∃ q, (mkBucketFeatures sq0 ((List.range 8).map c2Bucket)).liquidityMax = some q ∧
            q < 500)) :=
  ⟨(rankFamilies_gate_sorted [w4Fam]).2.1 w4Fam (by decide),
   (rankFamilies_gate_sorted [w10Single]).2.2.1 w10Single (by decide),
   (rankFamilies_gate_sorted [w4Fam]).2.2.2 w4Fam _ (by decide) rfl⟩

/-! ## Claim C3: invariants of emitted bucket families -/

theorem mem_pass2Step {acc : List MarketFamily} {m : NormalizedMarket} {f : MarketFamily}
    (h : f ∈ pass2Step acc m) : f ∈ acc ∨ f.family_type ≠ FamilyType.bucket := by
  unfold pass2Step at h
  split at h
  · exact Or.inl h
  · split at h
    · rcases List.mem_append.mp h with h1 | h1
      · exact Or.inl h1
      · right
        rcases List.mem_singleton.mp h1 with rfl
        simp
    · rcases List.mem_append.mp h with h1 | h1
      · exact Or.inl h1
      · right
        rcases List.mem_singleton.mp h1 with rfl
        simp

theorem mem_pass2_fold :
    ∀ (ms : List NormalizedMarket) (acc : List MarketFamily) (f : MarketFamily),
      f ∈ ms.foldl pass2Step acc → f ∈ acc ∨ f.family_type ≠ FamilyType.bucket := by
  intro ms
  induction ms with
  | nil => intro acc f h; exact Or.inl (by simpa using h)
  | cons m ms ih =>
    intro acc f h
    rcases ih (pass2Step acc m) f (by simpa using h) with h1 | h1
    · exact mem_pass2Step h1
    · exact Or.inr h1

theorem emitGroup_some {g : BucketGroup} {f : MarketFamily} (h : emitGroup g = some f) :
    f.family_type = FamilyType.bucket ∧ 2 ≤ f.buckets.length ∧
      f.buckets.all (fun b => decide (2 ≤ b.rangeParseConfidence)) = true ∧
      List.Pairwise (fun b1 b2 => b1.range.low ≤ b2.range.low) f.buckets := by
  unfold emitGroup at h
  split at h
  · exact absurd h (by simp)
  · rename_i hlen
    have hf := (Option.some.inj h).symm
    subst hf
    refine ⟨rfl, ?_, ?_, ?_⟩
    · show 2 ≤ (groupBuckets g).length
      omega
    · rw [List.all_eq_true]
      intro b hb
      have hb1 : b ∈ groupBuckets g := hb
      have hb2 : b ∈ adjustedMembers g :=
        (sortByLe_perm bucketLe (adjustedMembers g)).mem_iff.mp hb1
      rw [adjustedMembers, List.mem_filter] at hb2
      simpa using hb2.2
    · show List.Pairwise (fun b1 b2 => b1.range.low ≤ b2.range.low) (groupBuckets g)
      have h2 := sortByLe_pairwise bucketLe bucketLe_trans bucketLe_total (adjustedMembers g)
      exact h2.imp fun hab => by simpa [bucketLe] using hab

theorem buildFamilies_bucket_emitted {markets : List NormalizedMarket} {f : MarketFamily}
    (h : f ∈ buildFamilies markets) (hb : f.family_type = FamilyType.bucket) :
    ∃ g : BucketGroup, emitGroup g = some f := by
  unfold buildFamilies at h
  have h1 := (sortByLe_perm famLe _).mem_iff.mp h
  rcases mem_pass2_fold markets _ f h1 with h2 | h2
  · rcases List.mem_filterMap.mp h2 with ⟨kg, _, hkg⟩
    exact ⟨kg.2, hkg⟩
  · exact absurd hb h2

/-- Claim C3 (amended): every bucket family emitted by `buildFamilies` has at
least 2 members, all with adjusted confidence at least 2, and its members are
sorted by `range.low` in non-decreasing order. The original strict-ascending
claim fails: two members may share the same `range.low`. -/
theorem buildFamilies_bucket_invariants (markets : List NormalizedMarket) (f : MarketFamily)
    (hmem : f ∈ buildFamilies markets) (hb : f.family_type = FamilyType.bucket) :
    2 ≤ f.buckets.length ∧
      f.buckets.all (fun b => decide (2 ≤ b.rangeParseConfidence)) = true ∧
      List.Pairwise (fun b1 b2 => b1.range.low ≤ b2.range.low) f.buckets := by
  rcases buildFamilies_bucket_emitted hmem hb with ⟨g, hg⟩
  exact (emitGroup_some hg).2

/-- Counterexample to C3 as stated: two same-titled markets with the same
parsed range produce a bucket family whose two members share `range.low`, so
the members are not strictly ascending. -/
theorem buildFamilies_not_strictly_ascending :
    ∃ f, f ∈ buildFamilies c3Markets ∧ f.family_type = FamilyType.bucket ∧
      f.buckets.map (fun b => b.range.low) = [3, 3] ∧
      ¬ List.Pairwise (fun b1 b2 : BucketOutcome => b1.range.low < b2.range.low) f.buckets := by
  decide

/-- Witness for the amended C3 at the 8-bucket scenario family. -/
theorem buildFamilies_bucket_invariants_witness :
    2 ≤ c2Family.buckets.length ∧
      c2Family.buckets.all (fun b => decide (2 ≤ b.rangeParseConfidence)) = true ∧
      List.Pairwise (fun b1 b2 => b1.range.low ≤ b2.range.low) c2Family.buckets :=
  buildFamilies_bucket_invariants c2Markets c2Family (by decide) (by decide)

/-! ## Idempotence of `normalize` -/

theorem collapseGo_space :
    ∀ (b : Bool) (m : List Char) (c : Char), c ∈ collapseGo b m → isWSC c = true → c = ' ' := by
  intro b m
  induction m generalizing b with
  | nil => intro c h; simp [collapseGo] at h
  | cons x t ih =>
    intro c h hws
    by_cases hx : isWSC x
    · cases b with
      | true =>
        simp only [collapseGo, hx, if_true] at h
        exact ih true c h hws
      | false =>
        simp only [collapseGo, hx, if_true] at h
        rcases List.mem_cons.mp h with rfl | h2
        · rfl
        · exact ih true c h2 hws
    · simp only [collapseGo, hx] at h
      rcases List.mem_cons.mp h with rfl | h2
      · exact absurd hws (by simp [hx])
      · exact ih false c h2 hws

theorem collapseGo_mem :
    ∀ (b : Bool) (m : List Char) (c : Char), c ∈ collapseGo b m → c = ' ' ∨ c ∈ m := by
  intro b m
  induction m generalizing b with
  | nil => intro c h; simp [collapseGo] at h
  | cons x t ih =>
    intro c h
    by_cases hx : isWSC x
    · cases b with
      | true =>
        simp only [collapseGo, hx, if_true] at h
        rcases ih true c h with h2 | h2
        · exact Or.inl h2
        · exact Or.inr (List.mem_cons_of_mem x h2)
      | false =>
        simp only [collapseGo, hx, if_true] at h
        rcases List.mem_cons.mp h with rfl | h2
        · exact Or.inl rfl
        · rcases ih true c h2 with h3 | h3
          · exact Or.inl h3
          · exact Or.inr (List.mem_cons_of_mem x h3)
    · simp only [collapseGo, hx] at h
      rcases List.mem_cons.mp h with rfl | h2
      · exact Or.inr (List.mem_cons_self c t)
      · rcases ih false c h2 with h3 | h3
        · exact Or.inl h3
        · exact Or.inr (List.mem_cons_of_mem x h3)

theorem collapseGo_head_true :
    ∀ (t : List Char) (c : Char) (l : List Char),
      collapseGo true t = c :: l → isWSC c = false := by
  intro t
  induction t with
  | nil => intro c l h; simp [collapseGo] at h
  | cons x t ih =>
    intro c l h
    by_cases hx : isWSC x
    · simp only [collapseGo, hx, if_true] at h
      exact ih c l h
    · simp only [collapseGo, hx] at h
      rcases h with ⟨rfl, _⟩
      simpa using hx

theorem collapseGo_chain :
    ∀ (b : Bool) (m : List Char),
      List.Chain' (fun a c => ¬(isWSC a = true ∧ isWSC c = true)) (collapseGo b m) := by
  intro b m
  induction m generalizing b with
  | nil => simp [collapseGo]
  | cons x t ih =>
    by_cases hx : isWSC x
    · cases b with
      | true => simpa [collapseGo, hx] using ih true
      | false =>
        simp only [collapseGo, hx, if_true]
        refine List.chain'_cons'.mpr ⟨?_, ih true⟩
        intro y hy
        cases hcg : collapseGo true t with
        | nil => rw [hcg] at hy; simp at hy
        | cons c l =>
          rw [hcg] at hy
          simp only [List.head?_cons, Option.mem_def, Option.some.injEq] at hy
          subst hy
          have := collapseGo_head_true t c l hcg
          simp [this]
    · simp only [collapseGo, hx]
      refine List.chain'_cons'.mpr ⟨?_, ih false⟩
      intro y _
      simp [hx]

theorem collapseGo_id :
    ∀ (m : List Char), (∀ c ∈ m, isWSC c = true → c = ' ') →
      List.Chain' (fun a c => ¬(isWSC a = true ∧ isWSC c = true)) m →
      collapseGo false m = m ∧
        (∀ c l, m = c :: l → isWSC c = false → collapseGo true m = m) := by
  intro m
  induction m with
  | nil => intro _ _; exact ⟨rfl, fun c l h => by simp at h⟩
  | cons x t ih =>
    intro hnice hchain
    have hchain2 := (List.chain'_cons'.mp hchain).2
    have hrel := (List.chain'_cons'.mp hchain).1
    have ih2 := ih (fun c hc => hnice c (List.mem_cons_of_mem x hc)) hchain2
    by_cases hx : isWSC x
    · have hxsp : x = ' ' := hnice x (List.mem_cons_self x t) hx
      constructor
      · simp only [collapseGo, hx, if_true]
        cases t with
        | nil => simpa [collapseGo] using hxsp.symm
        | cons d t2 =>
          have hd : isWSC d = false := by
            have := hrel d (by simp)
            by_cases hdw : isWSC d
            · exact absurd ⟨hx, hdw⟩ this
            · simpa using hdw
          have hrec := ih2.2 d t2 rfl hd
          rw [hrec, hxsp]
          simp [collapseGo, hd, hrec]
      · intro c l hcl hcf
        have hxc : x = c := by injection hcl
        rw [hxc, hcf] at hx
        simp at hx
    · constructor
      · simp only [collapseGo, hx]
        rw [ih2.1]
        simp [hx]
      · intro c l hcl hcf
        simp only [collapseGo, hx]
        rw [ih2.1]
        simp [hx]

theorem dropWhile_head_not (p : Char → Bool) :
    ∀ (l : List Char) (c : Char) (t : List Char), l.dropWhile p = c :: t → p c = false := by
  intro l
  induction l with
  | nil => intro c t h; simp at h
  | cons x xs ih =>
    intro c t h
    by_cases hx : p x
    · rw [List.dropWhile_cons_of_pos hx] at h
      exact ih c t h
    · rw [List.dropWhile_cons_of_neg hx] at h
      rcases h with ⟨rfl, _⟩
      simpa using hx

theorem trimWS_mem {c : Char} {l : List Char} (h : c ∈ trimWS l) : c ∈ l := by
  have h1 : c ∈ List.dropWhile isWSC l := by
    have : trimWS l = List.rdropWhile isWSC (l.dropWhile isWSC) := rfl
    rw [this] at h
    exact (List.rdropWhile_prefix _ _).sublist.mem h
  exact (List.dropWhile_sublist _).mem h1

theorem trimWS_chain {R : Char → Char → Prop} {l : List Char} (h : List.Chain' R l) :
    List.Chain' R (trimWS l) := by
  have h1 : List.Chain' R (l.dropWhile isWSC) := h.suffix (List.dropWhile_suffix _)
  have : trimWS l = List.rdropWhile isWSC (l.dropWhile isWSC) := rfl
  rw [this]
  exact h1.prefix (List.rdropWhile_prefix _ _)

theorem trimWS_idem (l : List Char) : trimWS (trimWS l) = trimWS l := by
  have heq : trimWS l = List.rdropWhile isWSC (l.dropWhile isWSC) := rfl
  have hdw : List.dropWhile isWSC (trimWS l) = trimWS l := by
    cases hX : trimWS l with
    | nil => rfl
    | cons c t =>
      have hpre : trimWS l <+: l.dropWhile isWSC := heq ▸ List.rdropWhile_prefix _ _
      rcases hpre with ⟨u, hu⟩
      rw [hX] at hu
      have hc : isWSC c = false := dropWhile_head_not isWSC l c (t ++ u) (by simpa using hu.symm)
      rw [List.dropWhile_cons_of_neg (by simp [hc])]
  show List.rdropWhile isWSC ((trimWS l).dropWhile isWSC) = trimWS l
  rw [hdw, heq, List.rdropWhile_idempotent]

theorem map_dashFix_id :
    ∀ (l : List Char), (∀ c ∈ l, dashFix c = c) → l.map dashFix = l := by
  intro l
  induction l with
  | nil => intro _; rfl
  | cons x t ih =>
    intro h
    simp only [List.map_cons]
    rw [h x (List.mem_cons_self x t), ih (fun c hc => h c (List.mem_cons_of_mem x hc))]

theorem dashFix_dashFix (c : Char) : dashFix (dashFix c) = dashFix c := by
  by_cases h : isDashVar c = true
  · simp only [dashFix, h, if_true]
    decide
  · simp only [dashFix, h]
    simp only [Bool.not_eq_true] at h
    simp [h]

theorem normalizeChars_idem (l : List Char) :
    normalizeChars (normalizeChars l) = normalizeChars l := by
  have hnice : ∀ c ∈ normalizeChars l, isWSC c = true → c = ' ' := by
    intro c hc hws
    have h1 : c ∈ collapseWS ((l.map dashFix)) := trimWS_mem hc
    exact collapseGo_space false _ c h1 hws
  have hchain :
      List.Chain' (fun a c => ¬(isWSC a = true ∧ isWSC c = true)) (normalizeChars l) :=
    trimWS_chain (collapseGo_chain false (l.map dashFix))
  have hmap : (normalizeChars l).map dashFix = normalizeChars l := by
    apply map_dashFix_id
    intro c hc
    rcases collapseGo_mem false _ c (trimWS_mem hc) with rfl | h2
    · rfl
    · rcases List.mem_map.mp h2 with ⟨d, _, rfl⟩
      exact dashFix_dashFix d
  show trimWS (collapseWS ((normalizeChars l).map dashFix)) = normalizeChars l
  rw [hmap]
  show trimWS (collapseGo false (normalizeChars l)) = normalizeChars l
  rw [(collapseGo_id (normalizeChars l) hnice hchain).1]
  exact trimWS_idem _

theorem normalizeStr_idem (s : String) : normalizeStr (normalizeStr s) = normalizeStr s := by
  show String.mk (normalizeChars (normalizeChars s.data)) = String.mk (normalizeChars s.data)
  rw [normalizeChars_idem]

/-! ## Structural facts about the parser results -/

theorem tryPattern_some {cs : List Char}
    {fm : Option (List Char × List Char × List Char × List Char × List Char)}
    {r : ParsedRange} (h : tryPattern cs fm = some r) :
    (∃ a b, parseRangeTokens a b = some r) ∧ isLikelySeasonOrYearRange cs r = false := by
  unfold tryPattern at h
  split at h
  · rename_i pre a b m rest
    split at h
    · rename_i r2 hr2
      split at h
      · exact absurd h (by simp)
      · rename_i hguard
        rcases Option.some.inj h with rfl
        exact ⟨⟨a, b, hr2⟩, by simpa using hguard⟩
    · exact absurd h (by simp)
  · exact absurd h (by simp)

theorem tryPattern_fm {cs : List Char}
    {fm : Option (List Char × List Char × List Char × List Char × List Char)}
    {r : ParsedRange} (h : tryPattern cs fm = some r) : fm.isSome = true := by
  unfold tryPattern at h
  split at h
  · simp
  · exact absurd h (by simp)

theorem parseRangeFromText_some {text : String} {r : ParsedRange}
    (h : parseRangeFromText text = some r) :
    (∃ a b, parseRangeTokens a b = some r) ∧
      isLikelySeasonOrYearRange (normalizeChars text.data) r = false ∧
      ((findBetweenAux (normalizeChars text.data)).isSome = true ∨
        (findDashAux (normalizeChars text.data)).isSome = true) := by
  unfold parseRangeFromText at h
  split at h
  · rename_i r1 heq
    rcases Option.some.inj h with rfl
    rcases tryPattern_some heq with ⟨hex, hguard⟩
    exact ⟨hex, hguard, Or.inl (by simpa using tryPattern_fm heq)⟩
  · rcases tryPattern_some h with ⟨hex, hguard⟩
    exact ⟨hex, hguard, Or.inr (by simpa using tryPattern_fm h)⟩

theorem mkOrderedRange_lt {av bv : ℚ} {u : Option String} {r : ParsedRange}
    (h : mkOrderedRange av bv u = some r) : r.low < r.high := by
  unfold mkOrderedRange at h
  split at h
  · exact absurd h (by simp)
  · rename_i hne
    rcases Option.some.inj h with rfl
    exact lt_of_le_of_ne min_le_max hne

theorem parseRangeTokens_lt {a b : List Char} {r : ParsedRange}
    (h : parseRangeTokens a b = some r) : r.low < r.high := by
  unfold parseRangeTokens at h
  split at h
  · exact mkOrderedRange_lt h
  · exact absurd h (by simp)

theorem parseRangeFromText_lt {text : String} {r : ParsedRange}
    (h : parseRangeFromText text = some r) : r.low < r.high := by
  rcases (parseRangeFromText_some h).1 with ⟨a, b, hab⟩
  exact parseRangeTokens_lt hab

/-! ## Claim C6: the season/year guard on returned ranges -/

/-- Claim C6: a range returned by `parseRangeFromText` never satisfies the
season/year rejection conditions on the cleaned text when it is unit-less, and
the canonical example `2025-26 season` parses to nothing. -/
theorem parseRangeFromText_guard :
    (∀ (text : String) (r : ParsedRange), parseRangeFromText text = some r → r.unit = none →
      ¬(1900 ≤ r.low ∧ r.low ≤ 2100 ∧ 1900 ≤ r.high ∧ r.high ≤ 2100) ∧
      ¬(containsSub "season".data ((normalizeChars text.data).map toLowerC) = true ∧
          hasYearToken ((normalizeChars text.data).map toLowerC) = true) ∧
      ¬(hasYearToken ((normalizeChars text.data).map toLowerC) = true ∧
          ((1900 ≤ r.low ∧ r.high < 100) ∨ (1900 ≤ r.high ∧ r.low < 100)))) ∧
    parseRangeFromText "2025-26 season" = none := by
  constructor
  · intro text r h hu
    have hg := (parseRangeFromText_some h).2.1
    rw [isLikelySeasonOrYearRange] at hg
    rw [hu] at hg
    simp only at hg
    have hA : (containsSub "season".data ((normalizeChars text.data).map toLowerC) &&
        hasYearToken ((normalizeChars text.data).map toLowerC)) = false := by
      by_cases h2 : (containsSub "season".data ((normalizeChars text.data).map toLowerC) &&
          hasYearToken ((normalizeChars text.data).map toLowerC)) = true
      · rw [h2] at hg; simp at hg
      · simpa using h2
    rw [hA] at hg
    simp only [Bool.false_eq_true, if_false] at hg
    have hB : (decide (1900 ≤ r.low) && decide (r.high ≤ 2100)) = false := by
      by_cases h2 : (decide (1900 ≤ r.low) && decide (r.high ≤ 2100)) = true
      · rw [h2] at hg; simp at hg
      · simpa using h2
    rw [hB] at hg
    simp only [Bool.false_eq_true, if_false] at hg
    have hC : (hasYearToken ((normalizeChars text.data).map toLowerC) &&
        (decide (1900 ≤ r.low) || decide (1900 ≤ r.high)) &&
        (decide (r.low < 100) || decide (r.high < 100))) = false := by
      by_cases h2 : (hasYearToken ((normalizeChars text.data).map toLowerC) &&
          (decide (1900 ≤ r.low) || decide (1900 ≤ r.high)) &&
          (decide (r.low < 100) || decide (r.high < 100))) = true
      · rw [h2] at hg; simp at hg
      · simpa using h2
    refine ⟨?_, ?_, ?_⟩
    · rintro ⟨h1, _, _, h4⟩
      rw [Bool.and_eq_false_iff] at hB
      rcases hB with hB | hB
      · simp only [decide_eq_false_iff_not] at hB; exact hB h1
      · simp only [decide_eq_false_iff_not] at hB; exact hB h4
    · rintro ⟨h1, h2⟩
      rw [Bool.and_eq_false_iff] at hA
      rcases hA with hA | hA
      · rw [h1] at hA; simp at hA
      · rw [h2] at hA; simp at hA
    · rintro ⟨h1, h2⟩
      have hCtrue : (hasYearToken ((normalizeChars text.data).map toLowerC) &&
          (decide (1900 ≤ r.low) || decide (1900 ≤ r.high)) &&
          (decide (r.low < 100) || decide (r.high < 100))) = true := by
        rcases h2 with ⟨ha, hb⟩ | ⟨ha, hb⟩
        · simp [h1, ha, hb]
        · simp [h1, ha, hb]
      rw [hCtrue] at hC
      simp at hC
  · decide

/-- Witness for C6: `3-5` parses to a unit-less range, and the guard conditions
are indeed all false for it. -/
theorem parseRangeFromText_guard_witness :
    ¬(1900 ≤ (3 : ℚ) ∧ (3 : ℚ) ≤ 2100 ∧ 1900 ≤ (5 : ℚ) ∧ (5 : ℚ) ≤ 2100) ∧
      ¬(containsSub "season".data ((normalizeChars "3-5".data).map toLowerC) = true ∧
          hasYearToken ((normalizeChars "3-5".data).map toLowerC) = true) ∧
      ¬(hasYearToken ((normalizeChars "3-5".data).map toLowerC) = true ∧
          ((1900 ≤ (3 : ℚ) ∧ (5 : ℚ) < 100) ∨ (1900 ≤ (5 : ℚ) ∧ (3 : ℚ) < 100))) :=
  parseRangeFromText_guard.1 "3-5"
    { low := 3, high := 5, unit := none, normalizedLabel := "3-5" } (by decide) rfl

/-! ## Claim C5: confidence arithmetic of `parseRangeWithConfidence` -/

/-- Claim C5 (amended): whenever `parseRangeWithConfidence` returns, the clean
form bonus is always earned (a parse implies a pattern matched), so the
confidence is 2, plus 1 for a sane span, minus a single flat 2 when any extra
non-year number is present — the penalty does not scale with the count. In
particular the confidence always lies in [0, 3] and is never negative. -/
theorem parseRangeWithConfidence_flat_penalty (text : String) (res : RangeParseResult)
    (h : parseRangeWithConfidence text = some res) :
    res.confidence =
      2 + (if saneOkB (normalizeStr text) res.range then (1 : ℤ) else 0) -
        (if 0 < countExtraNonYearNumbers (normalizeStr text).data res.range then (2 : ℤ) else 0) ∧
    0 ≤ res.confidence ∧ res.confidence ≤ 3 := by
  unfold parseRangeWithConfidence at h
  split at h
  · exact absurd h (by simp)
  · rename_i range heq
    rcases Option.some.inj h with rfl
    have hidem : normalizeChars (normalizeStr text).data = (normalizeStr text).data := by
      show normalizeChars (normalizeChars text.data) = normalizeChars text.data
      exact normalizeChars_idem text.data
    have hclean : cleanFormB (normalizeStr text) = true := by
      rcases (parseRangeFromText_some heq).2.2 with h1 | h1
      · rw [hidem] at h1
        simp [cleanFormB, h1]
      · rw [hidem] at h1
        simp [cleanFormB, h1]
    constructor
    · show (confidenceResult (normalizeStr text) range).confidence = _
      unfold confidenceResult
      rw [hclean]
      simp
    · show 0 ≤ (confidenceResult (normalizeStr text) range).confidence ∧
        (confidenceResult (normalizeStr text) range).confidence ≤ 3
      unfold confidenceResult
      rw [hclean]
      by_cases hs : saneOkB (normalizeStr text) range = true
      · by_cases he : 0 < countExtraNonYearNumbers (normalizeStr text).data range
        · simp [hs, he]
        · simp [hs, he]
      · by_cases he : 0 < countExtraNonYearNumbers (normalizeStr text).data range
        · simp [hs, he]
        · simp [hs, he]

/-- Counterexample to C5 as stated: on `5 7-9 100 200` there are 4 extra
non-year numbers, yet the confidence is 1 (flat −2), not the −5 that the
per-number formula 2 + 1 − 2·4 would give; the claimed negative-confidence
input cannot exist. -/
theorem parseRangeWithConfidence_penalty_counterexample :
    parseRangeWithConfidence "5 7-9 100 200" =
      some { range := { low := 7, high := 9, unit := none, normalizedLabel := "7-9" }
             confidence := 1
             reasons := ["cleanRangeForm", "saneSpan", "extraNumbers(4)"] } ∧
    countExtraNonYearNumbers (normalizeStr "5 7-9 100 200").data
      { low := 7, high := 9, unit := none, normalizedLabel := "7-9" } = 4 ∧
    (1 : ℤ) ≠ 2 + 1 - 2 * 4 := by
  refine ⟨by decide, by decide, by decide⟩

/-- Witness for the amended C5 at `10 to 12` (confidence 3). -/
theorem parseRangeWithConfidence_flat_penalty_witness :
    ({ range := { low := 10, high := 12, unit := none, normalizedLabel := "10-12" }
       confidence := 3
       reasons := ["cleanRangeForm", "saneSpan"] } : RangeParseResult).confidence =
      2 + (if saneOkB (normalizeStr "10 to 12")
              ({ range := { low := 10, high := 12, unit := none, normalizedLabel := "10-12" }
                 confidence := 3
                 reasons := ["cleanRangeForm", "saneSpan"] } : RangeParseResult).range
           then (1 : ℤ) else 0) -
        (if 0 < countExtraNonYearNumbers (normalizeStr "10 to 12").data
              ({ range := { low := 10, high := 12, unit := none, normalizedLabel := "10-12" }
                 confidence := 3
                 reasons := ["cleanRangeForm", "saneSpan"] } : RangeParseResult).range
         then (2 : ℤ) else 0) ∧
    0 ≤ ({ range := { low := 10, high := 12, unit := none, normalizedLabel := "10-12" }
           confidence := 3
           reasons := ["cleanRangeForm", "saneSpan"] } : RangeParseResult).confidence ∧
    ({ range := { low := 10, high := 12, unit := none, normalizedLabel := "10-12" }
       confidence := 3
       reasons := ["cleanRangeForm", "saneSpan"] } : RangeParseResult).confidence ≤ 3 :=
  parseRangeWithConfidence_flat_penalty "10 to 12" _ (by decide)

/-! ## Claim C1: opportunity score bounds and the bucket formula -/

theorem scoreOne_bounds (sq lg : ℚ → ℚ) (f : MarketFamily) :
    0 ≤ (scoreOne sq lg f).opportunity_score ∧ (scoreOne sq lg f).opportunity_score ≤ 1 := by
  unfold scoreOne
  split
  · exact ⟨clamp01_nonneg _, clamp01_le_one _⟩
  · split
    · exact ⟨clamp01_nonneg _, clamp01_le_one _⟩
    · exact ⟨le_refl 0, by norm_num⟩

/-- Claim C1: every scored family has `opportunity_score ∈ [0, 1]`, and whenever
features are attached (exactly the bucket case) the score is the clamp to
[0, 1] of `0.30·maxSpike + 0.30·underroundEdge + 0.30·clusterCheapness +
0.10·liquidityScore − penalty`, each absent term contributing 0, as read back
from the exported features. -/
theorem scoreFamilies_bounds_formula (sq lg : ℚ → ℚ) (fams : List MarketFamily)
    (f : FamilyScored) (hf : f ∈ scoreFamilies sq lg fams) :
    (0 ≤ f.opportunity_score ∧ f.opportunity_score ≤ 1) ∧
    (∀ ft : BucketFeatures, f.features = some ft →
      f.opportunity_score =
        clamp01 ((3 / 10) * (ft.maxSpike.getD 0) +
          (3 / 10) * (if ft.gapCount = 0 ∧ ft.overlapCount = 0 ∧ 6 ≤ f.buckets.length then
              (match ft.overround with
               | some o => max 0 (1 - o)
               | none => 0)
            else 0) +
          (3 / 10) * (match ft.bestClusterZ with
            | some z => clamp01 ((-z) / 2)
            | none => 0) +
          (1 / 10) * (match ft.liquidityMax with
            | some lm => clamp01 (lg (1 + lm) / 5)
            | none => 0) -
          ((if 0 < ft.missingPrices then (1 / 10 : ℚ) else 0) +
            (if 0 < ft.gapCount then (3 / 20 : ℚ) else 0) +
            (if 0 < ft.overlapCount then (1 / 4 : ℚ) else 0)))) := by
  rcases List.mem_map.mp hf with ⟨g, _, rfl⟩
  refine ⟨scoreOne_bounds sq lg g, ?_⟩
  intro ft hft
  by_cases h1 : g.family_type = FamilyType.bucket ∧ g.buckets ≠ []
  · rw [scoreOne, if_pos h1] at hft ⊢
    have hft2 : mkBucketFeatures sq g.buckets = ft := by
      have : (scoreBucket sq lg g).features = some (mkBucketFeatures sq g.buckets) := rfl
      rw [this] at hft
      exact Option.some.inj hft
    subst hft2
    show bucketScoreOf sq lg g.buckets = _
    have hbk : (scoreBucket sq lg g).buckets = g.buckets := rfl
    rw [hbk]
    simp only [bucketScoreOf, bucketRawScoreOf, underroundEdgeOf, clusterCheapnessOf,
      liquidityScoreOf, penaltyOf, mkBucketFeatures]
    cases hbc : bestClusterOf sq g.buckets <;> simp [hbc]
  · rw [scoreOne, if_neg h1] at hft
    by_cases h2 : g.family_type = FamilyType.multi ∧ g.multi ≠ []
    · rw [if_pos h2] at hft
      have : (scoreMulti g).features = none := rfl
      rw [this] at hft
      exact absurd hft (by simp)
    · rw [if_neg h2] at hft
      exact absurd hft (by simp)

/-- Witness for C1: the bounds at a concrete single family scored by the
pipeline. -/
theorem scoreFamilies_bounds_witness :
    0 ≤ w10Single.opportunity_score ∧ w10Single.opportunity_score ≤ 1 :=
  (scoreFamilies_bounds_formula sq0 lg0 [w1Fam] w10Single (by decide)).1

/-! ## Claim C2: the 8-bucket synthetic scenario -/

/-- Claim C2: for the 8 normalized binary markets titled `X 0-1%` … `X 7-8%`
with yes price 0.12 and no event id, `buildFamilies` followed by
`scoreFamilies` produces exactly one family: a bucket family with 8 members
whose features have overround exactly 0.96, no gaps and no overlaps, whose
underround edge is strictly positive and whose opportunity score is strictly
positive — for every choice of the Math.sqrt and Math.log10 models. -/
theorem c2_scenario (sq lg : ℚ → ℚ) :
    ∃ (f : FamilyScored) (ft : BucketFeatures),
      scoreFamilies sq lg (buildFamilies c2Markets) = [f] ∧
      f.family_type = FamilyType.bucket ∧
      f.buckets.length = 8 ∧
      f.features = some ft ∧
      ft.overround = some (24 / 25) ∧
      ft.gapCount = 0 ∧
      ft.overlapCount = 0 ∧
      0 < underroundEdgeOf f.buckets ∧
      0 < f.opportunity_score := by
  have hb : buildFamilies c2Markets = [c2Family] := by decide
  have hcond : c2Family.family_type = FamilyType.bucket ∧ c2Family.buckets ≠ [] :=
    ⟨rfl, by decide⟩
  have hsc : scoreOne sq lg c2Family = scoreBucket sq lg c2Family := by
    rw [scoreOne, if_pos hcond]
  refine ⟨scoreOne sq lg c2Family, mkBucketFeatures sq c2Family.buckets, ?_, ?_, ?_, ?_, ?_, ?_,
    ?_, ?_, ?_⟩
  · rw [hb]; rfl
  · rw [hsc]; rfl
  · rw [hsc]; show c2Family.buckets.length = 8; decide
  · rw [hsc]; rfl
  · show overroundOf c2Family.buckets = some (24 / 25); decide
  · show gapCountOf c2Family.buckets = 0; decide
  · show overlapCountOf c2Family.buckets = 0; decide
  · rw [hsc]
    show 0 < underroundEdgeOf c2Family.buckets
    decide
  · rw [hsc]
    show 0 < bucketScoreOf sq lg c2Family.buckets
    have h1 : (maxSpikeOf c2Family.buckets).getD 0 = 0 := by decide
    have h2 : underroundEdgeOf c2Family.buckets = 1 / 25 := by decide
    have h3 : liquidityScoreOf lg c2Family.buckets = 0 := by
      unfold liquidityScoreOf
      have hl : liquidityMaxOf c2Family.buckets = none := by decide
      rw [hl]
    have h4 : penaltyOf c2Family.buckets = 0 := by decide
    have hcc : 0 ≤ clusterCheapnessOf sq c2Family.buckets := by
      unfold clusterCheapnessOf
      cases hbc : bestClusterOf sq c2Family.buckets with
      | none => exact le_refl 0
      | some b => exact clamp01_nonneg _
    unfold bucketScoreOf bucketRawScoreOf
    rw [h1, h2, h3, h4]
    apply clamp01_pos
    linarith

/-! ## Claim C7: liquidity and volume alias resolution -/

/-- Claim C7 (amended): the normalizer applies `coerceNumber` to the value of
the first present alias (`liquidityNum ?? liquidity ?? liquidityClob`, and
likewise for volume): when that first present value parses, it is used; when it
does not parse, the derived field is absent even if a later alias would parse. -/
theorem normalizeOne_alias_chain (jp : String → Option JVal) (raws : List GammaMarketLoose) :
    (normalizeGammaMarkets jp raws).1 = raws.filterMap (normalizeOne jp) ∧
    (∀ (m : GammaMarketLoose) (nm : NormalizedMarket), normalizeOne jp m = some nm →
      (∀ v, ((m.liquidityNum.map StrNum.n) <|> m.liquidity <|> m.liquidityClob) = some v →
        nm.liquidity = coerceNumberSN v) ∧
      (((m.liquidityNum.map StrNum.n) <|> m.liquidity <|> m.liquidityClob) = none →
        nm.liquidity = none) ∧
      (∀ v, ((m.volumeNum.map StrNum.n) <|> m.volume <|> m.volumeClob) = some v →
        nm.volume = coerceNumberSN v) ∧
      (((m.volumeNum.map StrNum.n) <|> m.volume <|> m.volumeClob) = none →
        nm.volume = none)) := by
  refine ⟨rfl, ?_⟩
  intro m nm h
  unfold normalizeOne at h
  split at h
  · exact absurd h (by simp)
  · rcases Option.some.inj h with rfl
    refine ⟨?_, ?_, ?_, ?_⟩
    · intro v hv
      show coerceNumOpt ((m.liquidityNum.map StrNum.n) <|> m.liquidity <|> m.liquidityClob) = _
      rw [hv]; rfl
    · intro hv
      show coerceNumOpt ((m.liquidityNum.map StrNum.n) <|> m.liquidity <|> m.liquidityClob) = _
      rw [hv]; rfl
    · intro v hv
      show coerceNumOpt ((m.volumeNum.map StrNum.n) <|> m.volume <|> m.volumeClob) = _
      rw [hv]; rfl
    · intro hv
      show coerceNumOpt ((m.volumeNum.map StrNum.n) <|> m.volume <|> m.volumeClob) = _
      rw [hv]; rfl

/-- Counterexample to C7 as stated: with `liquidityNum` absent, `liquidity`
present but unparseable (`"abc"`) and `liquidityClob` parseable (`"5"`), the
normalizer yields no liquidity at all, while the first-parseable-alias rule of
the claim would yield 5. -/
theorem normalizeOne_first_alias_counterexample :
    (normalizeOne jpNone c7Market).map (fun nm => nm.liquidity) = some none ∧
    claimFirstParseable [c7Market.liquidityNum.map StrNum.n, c7Market.liquidity,
      c7Market.liquidityClob] = some 5 ∧
    (normalizeOne jpNone c7Market).map (fun nm => nm.liquidity) ≠
      some (claimFirstParseable [c7Market.liquidityNum.map StrNum.n, c7Market.liquidity,
        c7Market.liquidityClob]) := by
  refine ⟨by decide, by decide, by decide⟩

/-- Witness for the amended C7: the unparseable first alias of `c7Market`
produces an absent liquidity. -/
theorem normalizeOne_alias_chain_witness :
    (normalizeGammaMarkets jpNone [c7Market]).1 = [c7Market].filterMap (normalizeOne jpNone) ∧
    c7Norm.liquidity = coerceNumberSN (StrNum.s "abc") :=
  ⟨(normalizeOne_alias_chain jpNone [c7Market]).1,
   ((normalizeOne_alias_chain jpNone [c7Market]).2 c7Market c7Norm (by decide)).1
     (StrNum.s "abc") (by decide)⟩

/-! ## Claim C9: properties of normalized identifiers and outcomes -/

theorem natDigsGo_ne_nil (f n : ℕ) : natDigsGo (f + 1) n ≠ [] := by
  unfold natDigsGo
  by_cases h : n < 10
  · simp [h]
  · simp [h]

theorem natRepr_ne_empty (n : ℕ) : natRepr n ≠ "" := by
  unfold natRepr natDigs
  intro h
  have h2 : natDigsGo (n + 1) n = [] := by
    have := congrArg String.data h
    simpa using this
  exact natDigsGo_ne_nil n n h2

theorem qPosToString_ne_empty (q : ℚ) : qPosToString q ≠ "" := by
  unfold qPosToString
  split
  · exact natRepr_ne_empty _
  · intro h
    have h2 := congrArg String.data h
    rw [String.data_append, String.data_append] at h2
    simp at h2
  · intro h
    have h2 := congrArg String.data h
    rw [String.data_append, String.data_append] at h2
    simp at h2

theorem qToString_ne_empty (q : ℚ) : qToString q ≠ "" := by
  unfold qToString
  split
  · intro h
    have h2 := congrArg String.data h
    rw [String.data_append] at h2
    simp at h2
  · exact qPosToString_ne_empty q

theorem stringifyId_ne_empty {v : Option StrNum} {s : String} (h : stringifyId v = some s) :
    s ≠ "" := by
  unfold stringifyId at h
  split at h
  · rename_i w
    by_cases ht : jsTrim w = ""
    · simp [ht] at h
    · simp only [ht, if_false, ite_false] at h
      rcases Option.some.inj h with rfl
      exact ht
  · rename_i q
    rcases Option.some.inj h with rfl
    exact qToString_ne_empty q
  · exact absurd h (by simp)

theorem normalizeOne_marketId_ne {jp : String → Option JVal} {m : GammaMarketLoose}
    {nm : NormalizedMarket} (h : normalizeOne jp m = some nm) : nm.marketId ≠ "" := by
  unfold normalizeOne at h
  split at h
  · exact absurd h (by simp)
  · rename_i id hid
    rcases Option.some.inj h with rfl
    exact stringifyId_ne_empty hid

/-- Claim C9 (amended): every normalized market has a non-empty `marketId`.
Uniqueness of identifiers across the output, and uniqueness of outcome names
within a market, are not enforced (see the counterexample). -/
theorem normalizeGammaMarkets_ids_nonempty (jp : String → Option JVal)
    (raws : List GammaMarketLoose) :
    ((normalizeGammaMarkets jp raws).1).Forall (fun nm => nm.marketId ≠ "") := by
  rw [List.forall_iff_forall_mem]
  intro nm hnm
  have hnm2 : nm ∈ raws.filterMap (normalizeOne jp) := hnm
  rcases List.mem_filterMap.mp hnm2 with ⟨m, _, hm⟩
  exact normalizeOne_marketId_ne hm

/-- Counterexample to C9 as stated: two records with the same id yield two
normalized markets with the same `marketId`, and a duplicated outcome list
passes through unchanged. -/
theorem normalizeGammaMarkets_no_uniqueness :
    ((normalizeGammaMarkets jpNone [c9RawA, c9RawB]).1).map (fun nm => nm.marketId) =
      ["a", "a"] ∧
    ¬(((normalizeGammaMarkets jpNone [c9RawA, c9RawB]).1).map (fun nm => nm.marketId)).Nodup ∧
    ((normalizeGammaMarkets jpNone [c9RawA, c9RawB]).1).map (fun nm => nm.outcomes) =
      [["Yes", "Yes"], []] ∧
    ¬(["Yes", "Yes"] : List String).Nodup := by
  refine ⟨by decide, by decide, by decide, by decide⟩

/-! ## Claim C8: totality of the core pipeline and explicit failure modes -/

/-- Claim C8: the core pipeline is total — it is defined (as a Lean function)
on every list of raw records and every host-primitive valuation — and its
failure modes are explicit rather than exceptional: every family emitted by the
ranked pipeline has an opportunity score in [0, 1]; a range returned by the
text parser is always well-ordered (failures are `none`); the cluster-ratio
denominator `max windowSum eps` is strictly positive for every window sum; the
z-score is 0 whenever the standard deviation is within the `1e-9` guard; and
the cluster search returns `none` instead of dividing by a zero candidate
count. -/
theorem pipeline_total_and_guarded :
    (∀ (jp : String → Option JVal) (sq lg : ℚ → ℚ) (raws : List GammaMarketLoose),
      (rankFamilies (scoreFamilies sq lg
          (buildFamilies (normalizeGammaMarkets jp raws).1))).Forall
        (fun f => 0 ≤ f.opportunity_score ∧ f.opportunity_score ≤ 1)) ∧
    (∀ (text : String) (r : ParsedRange),
      parseRangeFromText text = some r → r.low < r.high) ∧
    (∀ ws : ℚ, 0 < max ws clusterEps) ∧
    (∀ (std mean x : ℚ), std ≤ clusterEps → zScoreOf std mean x = 0) ∧
    (∀ (sq : ℚ → ℚ) (bs : List BucketOutcome),
      clusterCandidatesOf bs = [] → bestClusterOf sq bs = none) := by
  refine ⟨?_, ?_, ?_, ?_, ?_⟩
  · intro jp sq lg raws
    rw [List.forall_iff_forall_mem]
    intro f hf
    have hperm := sortByLe_perm rankLe
      ((scoreFamilies sq lg (buildFamilies (normalizeGammaMarkets jp raws).1)).filter gateRank)
    have hf2 : f ∈ (scoreFamilies sq lg
        (buildFamilies (normalizeGammaMarkets jp raws).1)).filter gateRank :=
      hperm.mem_iff.mp hf
    have hf3 := (List.mem_filter.mp hf2).1
    rcases List.mem_map.mp hf3 with ⟨g, _, rfl⟩
    exact scoreOne_bounds sq lg g
  · intro text r h
    exact parseRangeFromText_lt h
  · intro ws
    exact lt_max_of_lt_right (by norm_num [clusterEps])
  · intro std mean x h
    simp [zScoreOf, not_lt.mpr h]
  · intro sq bs h
    simp [bestClusterOf, h]

theorem pipeline_total_and_guarded_witness :
    zScoreOf (1 / 2000000000) 0 5 = 0 ∧ (0 : ℚ) < max (-3) clusterEps :=
  ⟨pipeline_total_and_guarded.2.2.2.1 (1 / 2000000000) 0 5 (by norm_num [clusterEps]),
   pipeline_total_and_guarded.2.2.1 (-3)⟩
